import Mathlib

/-
Verification of the greedy shotgun-assembly core of `lab5/lab5_ex1.py`:
read sampling (`sample_reads`), suffix/prefix overlap scoring (`overlap`),
the k-mer prefix index (`build_prefix_dict` plus its in-loop maintenance),
the greedy merge loop (`greedy_assemble`), and the brute-force alignment
verifier (`best_alignment_score`).

Python strings are modelled as `List Char`; Python `None` slots of the
mutable `reads` list are modelled as `Option` entries; the `defaultdict(set)`
prefix index is modelled as an insertion-ordered association list whose
buckets are insertion-ordered duplicate-free lists; exceptions are modelled
by `Option` results (`none` = a raised error).  The float percent identity
is modelled exactly in `ℚ`.
-/

/-- Python strings, modelled as lists of characters. -/
abbrev Str := List Char

/-- Coercion from Lean string literals, used only to write concrete inputs. -/
def str (s : String) : Str := s.toList

/-- Python slice `a[-l:]` (for `l = 0` Python yields the whole string `a`,
since `-0 = 0`; for `l ≥ len(a)` the start index clamps to `0`). -/
def pySuffix (a : Str) (l : Nat) : Str :=
  if l = 0 then a else a.drop (a.length - l)

/-- The descending scan of `overlap`: Python's
`for l in range(hi, stop - 1, -1): if a[-l:] == b[:l]: return l` / `return 0`,
unrolled on the scan variable `l` (note that returning at `l = 0` and falling
through both yield `0`, so the `l = 0` iteration collapses to `0`). -/
def overlapScan (a b : Str) (stop : Nat) : Nat → Nat
  | 0 => 0
  | l + 1 =>
    if l + 1 < stop then 0
    else if pySuffix a (l + 1) = b.take (l + 1) then l + 1
    else overlapScan a b stop l

/-- Model of `overlap(a, b, min_length)` from `lab5_ex1.py`: length of the
longest suffix of `a` matching a prefix of `b`, of length at least
`min_length`; `0` if none exists. -/
def overlap (a b : Str) (min_length : Nat) : Nat :=
  overlapScan a b min_length (min a.length b.length)

lemma overlapScan_cases (a b : Str) (stop : Nat) (hs : 1 ≤ stop) : ∀ l,
    (overlapScan a b stop l = 0 ∧
      ∀ m, stop ≤ m → m ≤ l → pySuffix a m ≠ b.take m) ∨
    (stop ≤ overlapScan a b stop l ∧ overlapScan a b stop l ≤ l ∧
      pySuffix a (overlapScan a b stop l) = b.take (overlapScan a b stop l) ∧
      ∀ m, overlapScan a b stop l < m → m ≤ l → pySuffix a m ≠ b.take m) := by
  intro l
  induction l with
  | zero =>
    left
    refine ⟨rfl, ?_⟩
    intro m hm hm0
    omega
  | succ l ih =>
    by_cases h1 : l + 1 < stop
    · left
      refine ⟨by simp [overlapScan, h1], ?_⟩
      intro m hm hm1
      omega
    · by_cases h2 : pySuffix a (l + 1) = b.take (l + 1)
      · right
        have hv : overlapScan a b stop (l + 1) = l + 1 := by
          simp [overlapScan, h1, h2]
        rw [hv]
        refine ⟨by omega, le_refl _, h2, ?_⟩
        intro m hm hm1
        omega
      · have hv : overlapScan a b stop (l + 1) = overlapScan a b stop l := by
          simp [overlapScan, h1, h2]
        rw [hv]
        rcases ih with ⟨h0, hno⟩ | ⟨hge, hle, heq, hno⟩
        · left
          refine ⟨h0, ?_⟩
          intro m hm hm1
          rcases Nat.lt_or_ge m (l + 1) with hlt | hge
          · exact hno m hm (by omega)
          · have : m = l + 1 := by omega
            rw [this]; exact h2
        · right
          refine ⟨hge, by omega, heq, ?_⟩
          intro m hm hm1
          rcases Nat.lt_or_ge m (l + 1) with hlt | hge'
          · exact hno m hm (by omega)
          · have : m = l + 1 := by omega
            rw [this]; exact h2

lemma pySuffix_eq_drop {a : Str} {l : Nat} (h : 1 ≤ l) :
    pySuffix a l = a.drop (a.length - l) := by
  unfold pySuffix
  rw [if_neg (by omega)]

/-- Full case description of `overlap a b k` for `k ≥ 1`, phrased with
`List.drop`/`List.take` ("last `l` characters" / "first `l` characters"). -/
lemma overlap_cases (a b : Str) (k : Nat) (hk : 1 ≤ k) :
    (overlap a b k = 0 ∧
      ∀ m, k ≤ m → m ≤ min a.length b.length →
        a.drop (a.length - m) ≠ b.take m) ∨
    (k ≤ overlap a b k ∧ overlap a b k ≤ min a.length b.length ∧
      a.drop (a.length - overlap a b k) = b.take (overlap a b k) ∧
      ∀ m, overlap a b k < m → m ≤ min a.length b.length →
        a.drop (a.length - m) ≠ b.take m) := by
  unfold overlap
  rcases overlapScan_cases a b k hk (min a.length b.length) with
    ⟨h0, hno⟩ | ⟨hge, hle, heq, hno⟩
  · left
    refine ⟨h0, ?_⟩
    intro m hm hm1 hEq
    exact hno m hm hm1 (by rw [pySuffix_eq_drop (by omega)]; exact hEq)
  · right
    refine ⟨hge, hle, ?_, ?_⟩
    · rw [← pySuffix_eq_drop
        (show 1 ≤ overlapScan a b k (min a.length b.length) by omega)]
      exact heq
    · intro m hm hm1 hEq
      exact hno m hm hm1 (by rw [pySuffix_eq_drop (by omega)]; exact hEq)

/-- The property claimed of `overlap` by C2: the returned value is the
greatest `l` with `k ≤ l ≤ min(len a, len b)` whose `l`-suffix of `a` equals
the `l`-front of `b` (and `0` when no such `l` exists), and a positive
return value certifies the match plus maximality. -/
def OverlapGreatest (a b : Str) (k : Nat) : Prop :=
  (∀ l, k ≤ l → l ≤ min a.length b.length →
      a.drop (a.length - l) = b.take l → l ≤ overlap a b k) ∧
  ((∀ l, k ≤ l → l ≤ min a.length b.length →
      a.drop (a.length - l) ≠ b.take l) → overlap a b k = 0) ∧
  (0 < overlap a b k →
    k ≤ overlap a b k ∧ overlap a b k ≤ min a.length b.length ∧
    a.drop (a.length - overlap a b k) = b.take (overlap a b k) ∧
    ∀ m, overlap a b k < m → m ≤ min a.length b.length →
      a.drop (a.length - m) ≠ b.take m)

/-- C2: for every `a`, `b` and `k ≥ 1`, `overlap a b k` returns the greatest
`l` with `k ≤ l ≤ min(len a, len b)` such that the last `l` characters of `a`
equal the first `l` characters of `b`, and `0` when no such `l` exists;
whenever the result is positive it certifies the match and its maximality. -/
theorem overlap_returns_greatest (a b : Str) (k : Nat) (hk : 1 ≤ k) :
    OverlapGreatest a b k := by
  rcases overlap_cases a b k hk with ⟨h0, hno⟩ | ⟨hge, hle, heq, hno⟩
  · refine ⟨?_, fun _ => h0, ?_⟩
    · intro l hl hl1 hEq
      exact absurd hEq (hno l hl hl1)
    · intro hpos
      omega
  · refine ⟨?_, ?_, fun _ => ⟨hge, hle, heq, hno⟩⟩
    · intro l hl hl1 hEq
      by_contra hcon
      exact hno l (by omega) hl1 hEq
    · intro hnone
      exact absurd heq (hnone _ hge hle)

/-- Witness for C2 at `a = "ABC"`, `b = "BCD"`, `k = 1` (overlap `2`). -/
theorem overlap_returns_greatest_witness :
    1 ≤ 1 ∧ OverlapGreatest (str "ABC") (str "BCD") 1 :=
  ⟨by decide, overlap_returns_greatest (str "ABC") (str "BCD") 1 (by decide)⟩

/-
The greedy assembler state.  Python mutates a list `reads` whose entries are
either a string or `None` (a tombstone), plus a `defaultdict(set)` mapping a
k-length leading substring to the set of slot indices registered under it.
-/

/-- The mutable fragment-slot list of `greedy_assemble` (`None` = tombstone). -/
abbrev Slots := List (Option Str)

/-- Python `reads[i]`, totalised: out-of-range reads as a tombstone (the code
only ever indexes with in-range indices coming from `enumerate` or the index
buckets). -/
def slot (reads : Slots) (i : Nat) : Option Str :=
  (reads.get? i).getD none

/-- Number of live (non-tombstoned) fragment slots. -/
def countLive (reads : Slots) : Nat :=
  reads.countP Option.isSome

/-- The prefix index: an insertion-ordered association list from k-length
leading substrings to insertion-ordered, duplicate-free buckets of slot
indices (modelling Python's `defaultdict(set)`). -/
abbrev PDict := List (Str × List Nat)

/-- First bucket registered under `key`, if any (Python `d.get(key)`). -/
def dictFind : PDict → Str → Option (List Nat)
  | [], _ => none
  | (s, b) :: rest, key => if s = key then some b else dictFind rest key

/-- Python `d.get(key, set())`. -/
def dictGet (d : PDict) (key : Str) : List Nat :=
  (dictFind d key).getD []

/-- Python `d[key].add(i)` on a `defaultdict(set)`: create the bucket if the
key is absent, then add `i` if not already present. -/
def dictAdd : PDict → Str → Nat → PDict
  | [], key, i => [(key, [i])]
  | (s, b) :: rest, key, i =>
    if s = key then (s, if i ∈ b then b else b ++ [i]) :: rest
    else (s, b) :: dictAdd rest key i

/-- The post-merge cleanup loop of `greedy_assemble`:
`for key in list(d.keys()): d[key].discard(j); if not d[key]: del d[key]`. -/
def dictPurge : PDict → Nat → PDict
  | [], _ => []
  | (s, b) :: rest, j =>
    let b' := b.filter (fun x => x ≠ j)
    if b' = [] then dictPurge rest j else (s, b') :: dictPurge rest j

/-- Model of `build_prefix_dict(reads, k)`:
`for i, r in enumerate(reads): if len(r) >= k: d[r[:k]].add(i)`. -/
def build_prefix_dict (reads : List Str) (k : Nat) : PDict :=
  reads.enum.foldl
    (fun d p => if k ≤ p.2.length then dictAdd d (p.2.take k) p.1 else d) []

/-- Running best of the candidate scan: `(best pair?, best_ol)`, starting at
`(None, 0)` like Python's `best_i = best_j = None; best_ol = 0`. -/
abbrev Best := Option (Nat × Nat) × Nat

/-- Model of the candidate scan of one `while` iteration of
`greedy_assemble`: for each live `a` of length `≥ k`, look up the bucket of
`a`'s trailing k-mer and score every live candidate `b ≠ a` with
`overlap a b k`, keeping the strictly best pair seen. -/
def findBest (k : Nat) (reads : Slots) (d : PDict) : Best :=
  reads.enum.foldl
    (fun best p =>
      match p.2 with
      | none => best
      | some a =>
        if a.length < k then best
        else
          (dictGet d (pySuffix a k)).foldl
            (fun best j =>
              if j = p.1 then best
              else
                match slot reads j with
                | none => best
                | some b =>
                  if best.2 < overlap a b k then (some (p.1, j), overlap a b k)
                  else best)
            best)
    (⟨none, 0⟩ : Best)

/-- One `while` iteration of `greedy_assemble`: `some` of the updated state
when `best_ol >= min_overlap and best_i is not None` fires a merge, `none`
when the loop breaks.  The inner wildcard arm is unreachable: a pair stored
by `findBest` always points at two live slots. -/
def asmStep (k : Nat) (reads : Slots) (d : PDict) : Option (Slots × PDict) :=
  match findBest k reads d with
  | (some (i, j), ol) =>
    if k ≤ ol then
      match slot reads i, slot reads j with
      | some a, some b =>
        let merged := a ++ b.drop ol
        some ((reads.set i (some merged)).set j none,
          dictPurge
            (if k ≤ merged.length then dictAdd d (merged.take k) i else d) j)
      | _, _ => none
    else none
  | (none, _) => none

/-- The `while True` loop, driven by explicit fuel; `greedy_assemble` supplies
fuel strictly larger than the live-slot count, which is proved sufficient
(each merge removes one live slot), so the `0` case is never reached. -/
def greedyLoopF (k : Nat) : Nat → Slots → PDict → Slots × PDict
  | 0, reads, d => (reads, d)
  | fuel + 1, reads, d =>
    match asmStep k reads d with
    | none => (reads, d)
    | some (reads', d') => greedyLoopF k fuel reads' d'

/-- Initial slot list of `greedy_assemble` (`reads = list(reads)`). -/
def initSlots (reads : List Str) : Slots := reads.map some

/-- Model of `greedy_assemble(reads, min_overlap)`: build the index, run the
merge loop to exhaustion, and return the non-tombstoned fragments in slot
order (`[r for r in reads if r is not None]`). -/
def greedy_assemble (reads : List Str) (min_overlap : Nat) : List Str :=
  ((greedyLoopF min_overlap (reads.length + 1) (initSlots reads)
      (build_prefix_dict reads min_overlap)).1).filterMap id

/-- States of the merge loop reachable in exactly `n` merges. -/
inductive ReachN (k : Nat) : Nat → Slots → PDict → Slots → PDict → Prop
  | refl (r d) : ReachN k 0 r d r d
  | tail {n r d r' d' r'' d''} : ReachN k n r d r' d' →
      asmStep k r' d' = some (r'', d'') → ReachN k (n + 1) r d r'' d''

/-- States of the merge loop reachable in any number of merges. -/
def Reach (k : Nat) (r : Slots) (d : PDict) (r' : Slots) (d' : PDict) : Prop :=
  ∃ n, ReachN k n r d r' d'

/-
Characterisation of the candidate scan: `findBest` is an arg-max fold over
the list of (fragment, candidate) index pairs it visits, in visit order.
-/

/-- Overlap score of an index pair, totalised over slots. -/
def olAt (k : Nat) (reads : Slots) (p : Nat × Nat) : Nat :=
  match slot reads p.1, slot reads p.2 with
  | some a, some b => overlap a b k
  | _, _ => 0

/-- Arg-max step with strict improvement, as in the Python `if ol > best_ol`. -/
def bump (f : Nat × Nat → Nat) (best : Best) (p : Nat × Nat) : Best :=
  if best.2 < f p then (some p, f p) else best

/-- Candidate filter of the inner scan loop: `none` when `j` is skipped
(`j == i` or `reads[j] is None`), otherwise the visited pair `(i, j)`. -/
def candOf (reads : Slots) (i j : Nat) : Option (Nat × Nat) :=
  if j = i then none else (slot reads j).map (fun _ => (i, j))

/-- Candidate pairs contributed by one enumerated slot. -/
def candPairs (k : Nat) (reads : Slots) (d : PDict) (p : Nat × Option Str) :
    List (Nat × Nat) :=
  match p.2 with
  | none => []
  | some a =>
    if a.length < k then []
    else (dictGet d (pySuffix a k)).filterMap (candOf reads p.1)

/-- All index pairs visited by one scan of `findBest`, in visit order. -/
def scanPairs (k : Nat) (reads : Slots) (d : PDict) : List (Nat × Nat) :=
  reads.enum.flatMap (candPairs k reads d)

lemma slot_of_mem_enum {reads : Slots} {p : Nat × Option Str}
    (h : p ∈ reads.enum) : slot reads p.1 = p.2 := by
  obtain ⟨i, x⟩ := p
  obtain ⟨h1, h2⟩ := List.mem_enum h
  have hx : reads[i]? = some x := List.getElem?_eq_some_iff.2 ⟨h1, h2.symm⟩
  rw [slot, List.get?_eq_getElem?, hx]
  rfl

lemma mem_enum_of_slot {reads : Slots} {i : Nat} {x : Option Str}
    (h : slot reads i = x) (hi : i < reads.length) : (i, x) ∈ reads.enum := by
  have hx : reads[i]? = some x := by
    have hg : reads[i]? = some reads[i] := List.getElem?_eq_some_iff.2 ⟨hi, rfl⟩
    rw [slot, List.get?_eq_getElem?, hg] at h
    rw [hg]
    exact congrArg some h
  have henum : reads.enum[i]? = some (i, x) := by
    rw [List.getElem?_enum, hx]
    rfl
  exact List.get?_mem (by rw [List.get?_eq_getElem?]; exact henum)

lemma slot_some_lt_length {reads : Slots} {i : Nat} {a : Str}
    (h : slot reads i = some a) : i < reads.length := by
  by_contra hcon
  have hnone : reads[i]? = none := by
    rw [List.getElem?_eq_none_iff]
    omega
  rw [slot, List.get?_eq_getElem?, hnone] at h
  simp at h

lemma foldl_skip_filterMap {α β γ : Type} (g : α → Option β)
    (step : γ → β → γ) (L : List α) (init : γ) :
    L.foldl (fun c x => (g x).elim c (step c)) init
      = (L.filterMap g).foldl step init := by
  induction L generalizing init with
  | nil => rfl
  | cons x L ih =>
    rcases hgx : g x with _ | y
    · simp only [List.foldl_cons, List.filterMap_cons, hgx, Option.elim]
      exact ih init
    · simp only [List.foldl_cons, List.filterMap_cons, hgx, Option.elim]
      exact ih (step init y)

lemma foldl_flatMap_eq {α β γ : Type} (g : α → List β) (stepO : γ → α → γ)
    (step : γ → β → γ) (L : List α)
    (h : ∀ x ∈ L, ∀ c, stepO c x = (g x).foldl step c) (init : γ) :
    L.foldl stepO init = (L.flatMap g).foldl step init := by
  induction L generalizing init with
  | nil => rfl
  | cons x L ih =>
    simp only [List.foldl_cons, List.flatMap_cons, List.foldl_append]
    rw [h x (by simp)]
    exact ih (fun y hy c => h y (by simp [hy]) c) _

lemma findBest_eq_foldl (k : Nat) (reads : Slots) (d : PDict) :
    findBest k reads d
      = (scanPairs k reads d).foldl (bump (olAt k reads)) (⟨none, 0⟩ : Best) := by
  unfold findBest scanPairs
  refine foldl_flatMap_eq _ _ _ _ ?_ _
  intro p hp c
  have hs := slot_of_mem_enum hp
  rcases hpa : p.2 with _ | a
  · simp [candPairs, hpa]
  · rcases hlen : decide (a.length < k) with _ | _
    · have hlen' : ¬ a.length < k := by simpa using hlen
      simp only [hpa, if_neg hlen', candPairs]
      have hbody : (fun (best : Best) j =>
          if j = p.1 then best
          else
            match slot reads j with
            | none => best
            | some b =>
              if best.2 < overlap a b k then (some (p.1, j), overlap a b k)
              else best)
          = (fun (best : Best) j =>
              (candOf reads p.1 j).elim best (bump (olAt k reads) best)) := by
        funext best j
        by_cases hj : j = p.1
        · simp [hj, candOf]
        · rcases hsj : slot reads j with _ | b
          · simp [hj, hsj, candOf]
          · have holAt : olAt k reads (p.1, j) = overlap a b k := by
              unfold olAt
              rw [hpa] at hs
              simp [hs, hsj]
            simp [hj, hsj, candOf, bump, holAt]
      rw [hbody]
      exact foldl_skip_filterMap (candOf reads p.1) (bump (olAt k reads))
        (dictGet d (pySuffix a k)) c
    · have hlen' : a.length < k := by simpa using hlen
      simp [candPairs, hpa, hlen']

lemma bump_foldl_spec (f : Nat × Nat → Nat) (L : List (Nat × Nat)) :
    (∀ q ∈ L, f q ≤ (L.foldl (bump f) (⟨none, 0⟩ : Best)).2) ∧
    ((L.foldl (bump f) (⟨none, 0⟩ : Best)).1 = none →
      (L.foldl (bump f) (⟨none, 0⟩ : Best)).2 = 0) ∧
    (∀ p, (L.foldl (bump f) (⟨none, 0⟩ : Best)).1 = some p →
      f p = (L.foldl (bump f) (⟨none, 0⟩ : Best)).2 ∧ 1 ≤ f p ∧
      ∃ L₁ L₂, L = L₁ ++ p :: L₂ ∧ ∀ q ∈ L₁, f q < f p) := by
  induction L using List.reverseRecOn with
  | nil => exact ⟨by simp, fun _ => rfl, fun p hp => by simp at hp⟩
  | append_singleton L x ih =>
    obtain ⟨ihmax, ihnone, ihsome⟩ := ih
    rw [List.foldl_append]
    set res := L.foldl (bump f) (⟨none, 0⟩ : Best) with hres
    by_cases hlt : res.2 < f x
    · have hb : List.foldl (bump f) res [x] = (some x, f x) := by
        simp [bump, hlt]
      rw [hb]
      refine ⟨?_, by simp, ?_⟩
      · intro q hq
        rcases List.mem_append.1 hq with hq | hq
        · exact le_of_lt (lt_of_le_of_lt (ihmax q hq) hlt)
        · simp at hq
          simp [hq]
      · intro p hp
        simp only at hp
        injection hp with hp
        subst hp
        refine ⟨rfl, by omega, L, [], rfl, ?_⟩
        intro q hq
        exact lt_of_le_of_lt (ihmax q hq) hlt
    · have hb : List.foldl (bump f) res [x] = res := by
        simp [bump, hlt]
      rw [hb]
      refine ⟨?_, ihnone, ?_⟩
      · intro q hq
        rcases List.mem_append.1 hq with hq | hq
        · exact ihmax q hq
        · simp at hq
          subst hq
          omega
      · intro p hp
        obtain ⟨h1, h2, L₁, L₂, hsplit, hfirst⟩ := ihsome p hp
        exact ⟨h1, h2, L₁, L₂ ++ [x], by rw [hsplit, List.append_assoc]; rfl,
          hfirst⟩

lemma mem_scanPairs {k : Nat} {reads : Slots} {d : PDict} {i j : Nat} :
    (i, j) ∈ scanPairs k reads d ↔
      ∃ a, slot reads i = some a ∧ k ≤ a.length ∧
        j ∈ dictGet d (pySuffix a k) ∧ j ≠ i ∧ (slot reads j).isSome := by
  constructor
  · intro h
    obtain ⟨p, hp, hpair⟩ := List.mem_flatMap.1 h
    have hs := slot_of_mem_enum hp
    obtain ⟨i₀, oa⟩ := p
    rcases oa with _ | a
    · simp [candPairs] at hpair
    · unfold candPairs at hpair
      simp only at hpair
      by_cases hlen : a.length < k
      · simp [hlen] at hpair
      · rw [if_neg hlen] at hpair
        obtain ⟨j₀, hj₀, hco⟩ := List.mem_filterMap.1 hpair
        unfold candOf at hco
        by_cases hji : j₀ = i₀
        · simp [hji] at hco
        · rw [if_neg hji] at hco
          rcases hsj : slot reads j₀ with _ | b
          · rw [hsj] at hco
            simp at hco
          · rw [hsj] at hco
            have hco2 : (i₀, j₀) = (i, j) := by simpa using hco
            injection hco2 with h1 h2
            subst h1
            subst h2
            exact ⟨a, hs, by omega, hj₀, hji, by simp [hsj]⟩
  · rintro ⟨a, ha, hlen, hjmem, hji, hjsome⟩
    refine List.mem_flatMap.2 ⟨(i, some a), mem_enum_of_slot ha
      (slot_some_lt_length ha), ?_⟩
    unfold candPairs
    simp only
    rw [if_neg (by omega)]
    refine List.mem_filterMap.2 ⟨j, hjmem, ?_⟩
    unfold candOf
    rw [if_neg hji]
    rcases hsj : slot reads j with _ | b
    · rw [hsj] at hjsome
      simp at hjsome
    · simp

/-- The semantic candidate-pair relation: two distinct live fragments where
the trailing k-mer of the first equals the leading k-mer of the second (both
at least `k` long).  Under the index invariant these are exactly the pairs
the scan of `greedy_assemble` visits and scores. -/
def CandPair (k : Nat) (reads : Slots) (i j : Nat) : Prop :=
  i ≠ j ∧ ∃ a b, slot reads i = some a ∧ slot reads j = some b ∧
    k ≤ a.length ∧ k ≤ b.length ∧ pySuffix a k = b.take k

/-
Lemmas about the association-list model of the `defaultdict(set)` index.
-/

lemma dictFind_some_mem {d : PDict} {s : Str} {b : List Nat}
    (h : dictFind d s = some b) : (s, b) ∈ d := by
  induction d with
  | nil => simp [dictFind] at h
  | cons e rest ih =>
    obtain ⟨s₀, b₀⟩ := e
    unfold dictFind at h
    by_cases hs : s₀ = s
    · rw [if_pos hs] at h
      injection h with h
      subst hs
      subst h
      exact List.mem_cons_self _ _
    · rw [if_neg hs] at h
      exact List.mem_cons_of_mem _ (ih h)

lemma mem_dictGet {d : PDict} {s : Str} {j : Nat} (h : j ∈ dictGet d s) :
    ∃ b, dictFind d s = some b ∧ j ∈ b := by
  unfold dictGet at h
  rcases hf : dictFind d s with _ | b
  · rw [hf] at h
    simp at h
  · rw [hf] at h
    exact ⟨b, rfl, h⟩

lemma dictFind_none_iff {d : PDict} {s : Str} :
    dictFind d s = none ↔ s ∉ d.map Prod.fst := by
  induction d with
  | nil => simp [dictFind]
  | cons e rest ih =>
    obtain ⟨s₀, b₀⟩ := e
    unfold dictFind
    by_cases hs : s₀ = s
    · subst hs
      simp
    · rw [if_neg hs]
      simp [ih, hs, Ne.symm hs]

lemma dictFind_of_mem_nodup {d : PDict} {s : Str} {b : List Nat}
    (hnd : (d.map Prod.fst).Nodup) (h : (s, b) ∈ d) : dictFind d s = some b := by
  induction d with
  | nil => simp at h
  | cons e rest ih =>
    obtain ⟨s₀, b₀⟩ := e
    rw [List.map_cons, List.nodup_cons] at hnd
    rcases List.mem_cons.1 h with h | h
    · injection h with h1 h2
      subst h1
      subst h2
      simp [dictFind]
    · have hs : s₀ ≠ s := by
        intro hcon
        subst hcon
        exact hnd.1 (List.mem_map.2 ⟨(s₀, b), h, rfl⟩)
      unfold dictFind
      rw [if_neg hs]
      exact ih hnd.2 h

lemma dictGet_dictAdd (d : PDict) (t : Str) (i : Nat) (s : Str) (j : Nat) :
    j ∈ dictGet (dictAdd d t i) s ↔ j ∈ dictGet d s ∨ (j = i ∧ s = t) := by
  induction d with
  | nil =>
    by_cases hs : t = s
    · subst hs
      constructor
      · intro h
        simp [dictAdd, dictGet, dictFind] at h
        exact Or.inr ⟨h, rfl⟩
      · intro h
        rcases h with h | ⟨h, -⟩
        · simp [dictGet, dictFind] at h
        · simp [dictAdd, dictGet, dictFind, h]
    · have hs2 : ¬ s = t := fun hc => hs hc.symm
      simp [dictAdd, dictGet, dictFind, hs, hs2]
  | cons e rest ih =>
    obtain ⟨s₀, b₀⟩ := e
    by_cases ht : s₀ = t
    · subst ht
      by_cases hs : s₀ = s
      · subst hs
        have hL : dictGet (dictAdd ((s₀, b₀) :: rest) s₀ i) s₀
            = (if i ∈ b₀ then b₀ else b₀ ++ [i]) := by
          simp [dictAdd, dictGet, dictFind]
        have hR : dictGet ((s₀, b₀) :: rest) s₀ = b₀ := by
          simp [dictGet, dictFind]
        rw [hL, hR]
        by_cases hib : i ∈ b₀
        · rw [if_pos hib]
          constructor
          · exact fun h => Or.inl h
          · rintro (h | ⟨h, -⟩)
            · exact h
            · subst h
              exact hib
        · rw [if_neg hib]
          constructor
          · intro h
            rcases List.mem_append.1 h with h | h
            · exact Or.inl h
            · simp at h
              exact Or.inr ⟨h, rfl⟩
          · rintro (h | ⟨h, -⟩)
            · exact List.mem_append.2 (Or.inl h)
            · subst h
              simp
      · have hL : dictGet (dictAdd ((s₀, b₀) :: rest) s₀ i) s
            = dictGet rest s := by
          simp [dictAdd, dictGet, dictFind, hs]
        have hR : dictGet ((s₀, b₀) :: rest) s = dictGet rest s := by
          simp [dictGet, dictFind, hs]
        rw [hL, hR]
        have hst : ¬ (j = i ∧ s = s₀) := by
          rintro ⟨-, h2⟩
          exact hs h2.symm
        tauto
    · by_cases hs : s₀ = s
      · subst hs
        have hL : dictGet (dictAdd ((s₀, b₀) :: rest) t i) s₀ = b₀ := by
          simp [dictAdd, dictGet, dictFind, ht]
        have hR : dictGet ((s₀, b₀) :: rest) s₀ = b₀ := by
          simp [dictGet, dictFind]
        rw [hL, hR]
        have hst : ¬ (j = i ∧ s₀ = t) := by
          rintro ⟨-, h2⟩
          exact ht h2
        tauto
      · have hL : dictGet (dictAdd ((s₀, b₀) :: rest) t i) s
            = dictGet (dictAdd rest t i) s := by
          simp [dictAdd, dictGet, dictFind, ht, hs]
        have hR : dictGet ((s₀, b₀) :: rest) s = dictGet rest s := by
          simp [dictGet, dictFind, hs]
        rw [hL, hR]
        exact ih

lemma dictAdd_entries {d : PDict} {t : Str} {i : Nat} :
    ∀ e ∈ dictAdd d t i, ∀ j ∈ e.2,
      (j = i ∧ e.1 = t) ∨ ∃ e' ∈ d, e'.1 = e.1 ∧ j ∈ e'.2 := by
  induction d with
  | nil =>
    intro e he j hj
    unfold dictAdd at he
    simp at he
    subst he
    simp at hj
    exact Or.inl ⟨hj, rfl⟩
  | cons e₀ rest ih =>
    obtain ⟨s₀, b₀⟩ := e₀
    intro e he j hj
    unfold dictAdd at he
    by_cases ht : s₀ = t
    · rw [if_pos ht] at he
      rcases List.mem_cons.1 he with he | he
      · subst he
        simp only at hj
        by_cases hib : i ∈ b₀
        · rw [if_pos hib] at hj
          exact Or.inr ⟨(s₀, b₀), List.mem_cons_self _ _, rfl, hj⟩
        · rw [if_neg hib] at hj
          rcases List.mem_append.1 hj with hj | hj
          · exact Or.inr ⟨(s₀, b₀), List.mem_cons_self _ _, rfl, hj⟩
          · simp at hj
            exact Or.inl ⟨hj, ht⟩
      · exact Or.inr ⟨e, List.mem_cons_of_mem _ he, rfl, hj⟩
    · rw [if_neg ht] at he
      rcases List.mem_cons.1 he with he | he
      · subst he
        exact Or.inr ⟨(s₀, b₀), List.mem_cons_self _ _, rfl, hj⟩
      · rcases ih e he j hj with h | ⟨e', he', h1, h2⟩
        · exact Or.inl h
        · exact Or.inr ⟨e', List.mem_cons_of_mem _ he', h1, h2⟩

lemma keys_dictAdd (d : PDict) (t : Str) (i : Nat) :
    (dictAdd d t i).map Prod.fst
      = if t ∈ d.map Prod.fst then d.map Prod.fst
        else d.map Prod.fst ++ [t] := by
  induction d with
  | nil => simp [dictAdd]
  | cons e rest ih =>
    obtain ⟨s₀, b₀⟩ := e
    by_cases ht : s₀ = t
    · subst ht
      simp [dictAdd]
    · rw [show dictAdd ((s₀, b₀) :: rest) t i = (s₀, b₀) :: dictAdd rest t i
        from by simp [dictAdd, ht]]
      have ht2 : ¬ t = s₀ := fun hc => ht hc.symm
      by_cases hin : t ∈ rest.map Prod.fst
      · simp [ih, hin, ht2]
      · simp [ih, hin, ht2]

lemma mem_keys_dictAdd {d : PDict} {t : Str} {i : Nat} {u : Str}
    (h : u ∈ (dictAdd d t i).map Prod.fst) : u ∈ d.map Prod.fst ∨ u = t := by
  rw [keys_dictAdd] at h
  by_cases hin : t ∈ d.map Prod.fst
  · rw [if_pos hin] at h
    exact Or.inl h
  · rw [if_neg hin] at h
    rcases List.mem_append.1 h with h | h
    · exact Or.inl h
    · simp at h
      exact Or.inr h

lemma dictAdd_keys_nodup {d : PDict} {t : Str} {i : Nat}
    (h : (d.map Prod.fst).Nodup) : ((dictAdd d t i).map Prod.fst).Nodup := by
  induction d with
  | nil => simp [dictAdd]
  | cons e rest ih =>
    obtain ⟨s₀, b₀⟩ := e
    rw [List.map_cons, List.nodup_cons] at h
    unfold dictAdd
    by_cases ht : s₀ = t
    · rw [if_pos ht]
      rw [List.map_cons, List.nodup_cons]
      exact h
    · rw [if_neg ht]
      rw [List.map_cons, List.nodup_cons]
      refine ⟨?_, ih h.2⟩
      intro hcon
      rcases mem_keys_dictAdd hcon with hc | hc
      · exact h.1 hc
      · exact ht hc

lemma dictPurge_entries {d : PDict} {j : Nat} :
    ∀ e ∈ dictPurge d j,
      ∃ e' ∈ d, e.1 = e'.1 ∧ e.2 = e'.2.filter (fun x => x ≠ j) := by
  induction d with
  | nil =>
    intro e he
    simp [dictPurge] at he
  | cons e₀ rest ih =>
    obtain ⟨s₀, b₀⟩ := e₀
    intro e he
    unfold dictPurge at he
    by_cases hb : b₀.filter (fun x => x ≠ j) = []
    · simp only [hb, if_pos] at he
      obtain ⟨e', he', h1, h2⟩ := ih e he
      exact ⟨e', List.mem_cons_of_mem _ he', h1, h2⟩
    · simp only [hb, if_neg, if_false] at he
      rcases List.mem_cons.1 he with he | he
      · subst he
        exact ⟨(s₀, b₀), List.mem_cons_self _ _, rfl, rfl⟩
      · obtain ⟨e', he', h1, h2⟩ := ih e he
        exact ⟨e', List.mem_cons_of_mem _ he', h1, h2⟩

lemma mem_keys_dictPurge {d : PDict} {j : Nat} {u : Str}
    (h : u ∈ (dictPurge d j).map Prod.fst) : u ∈ d.map Prod.fst := by
  obtain ⟨e, he, hu⟩ := List.mem_map.1 h
  obtain ⟨e', he', h1, -⟩ := dictPurge_entries e he
  exact List.mem_map.2 ⟨e', he', by rw [← hu, h1]⟩

lemma dictPurge_keys_nodup {d : PDict} {j : Nat}
    (h : (d.map Prod.fst).Nodup) : ((dictPurge d j).map Prod.fst).Nodup := by
  induction d with
  | nil => simp [dictPurge]
  | cons e₀ rest ih =>
    obtain ⟨s₀, b₀⟩ := e₀
    rw [List.map_cons, List.nodup_cons] at h
    unfold dictPurge
    by_cases hb : b₀.filter (fun x => x ≠ j) = []
    · simp only [hb, if_pos]
      exact ih h.2
    · simp only [hb, if_neg, if_false]
      rw [List.map_cons, List.nodup_cons]
      exact ⟨fun hc => h.1 (mem_keys_dictPurge hc), ih h.2⟩

lemma dictGet_dictPurge {d : PDict} {j : Nat}
    (hnd : (d.map Prod.fst).Nodup) (s : Str) :
    dictGet (dictPurge d j) s = (dictGet d s).filter (fun x => x ≠ j) := by
  induction d with
  | nil => simp [dictPurge, dictGet, dictFind]
  | cons e₀ rest ih =>
    obtain ⟨s₀, b₀⟩ := e₀
    rw [List.map_cons, List.nodup_cons] at hnd
    unfold dictPurge
    by_cases hb : b₀.filter (fun x => x ≠ j) = []
    · simp only [hb, if_pos]
      by_cases hs : s₀ = s
      · subst hs
        have hfind : dictFind (dictPurge rest j) s₀ = none := by
          rw [dictFind_none_iff]
          exact fun hc => hnd.1 (mem_keys_dictPurge hc)
        rw [show dictGet ((s₀, b₀) :: rest) s₀ = b₀ from by
          simp [dictGet, dictFind]]
        rw [dictGet, hfind, hb]
        rfl
      · rw [show dictGet ((s₀, b₀) :: rest) s = dictGet rest s from by
          simp [dictGet, dictFind, hs]]
        exact ih hnd.2
    · simp only [hb, if_neg, if_false]
      by_cases hs : s₀ = s
      · subst hs
        rw [show dictGet ((s₀, b₀.filter (fun x => x ≠ j)) :: dictPurge rest j)
              s₀ = b₀.filter (fun x => x ≠ j) from by
          simp [dictGet, dictFind]]
        rw [show dictGet ((s₀, b₀) :: rest) s₀ = b₀ from by
          simp [dictGet, dictFind]]
      · rw [show dictGet ((s₀, b₀.filter (fun x => x ≠ j)) :: dictPurge rest j)
              s = dictGet (dictPurge rest j) s from by
          simp [dictGet, dictFind, hs]]
        rw [show dictGet ((s₀, b₀) :: rest) s = dictGet rest s from by
          simp [dictGet, dictFind, hs]]
        exact ih hnd.2

/-
The index invariant maintained by `greedy_assemble`, and its establishment
by `build_prefix_dict`.
-/

/-- The invariant tying the index to the slot list: every registered index is
live with the registered k-mer as its leading k-mer (soundness), every live
fragment of length `≥ k` is registered under its leading k-mer
(completeness), and keys are unique (Python dict semantics). -/
structure DInv (k : Nat) (reads : Slots) (d : PDict) : Prop where
  sound : ∀ e ∈ d, ∀ j ∈ e.2,
    ∃ f, slot reads j = some f ∧ k ≤ f.length ∧ f.take k = e.1
  complete : ∀ i f, slot reads i = some f → k ≤ f.length →
    i ∈ dictGet d (f.take k)
  keys : (d.map Prod.fst).Nodup

lemma buildFold_mem (k : Nat) (L : List (Nat × Str)) (d : PDict) (s : Str)
    (j : Nat) :
    j ∈ dictGet (L.foldl
        (fun d p => if k ≤ p.2.length then dictAdd d (p.2.take k) p.1 else d)
        d) s
      ↔ j ∈ dictGet d s ∨ ∃ r, (j, r) ∈ L ∧ k ≤ r.length ∧ r.take k = s := by
  induction L generalizing d with
  | nil => simp
  | cons p L ih =>
    obtain ⟨i₀, r₀⟩ := p
    rw [List.foldl_cons]
    by_cases hlen : k ≤ r₀.length
    · rw [if_pos hlen, ih, dictGet_dictAdd]
      constructor
      · rintro ((h | ⟨h1, h2⟩) | ⟨r, hr, h1, h2⟩)
        · exact Or.inl h
        · exact Or.inr ⟨r₀, by simp [h1], hlen, h2.symm⟩
        · exact Or.inr ⟨r, List.mem_cons_of_mem _ hr, h1, h2⟩
      · rintro (h | ⟨r, hr, h1, h2⟩)
        · exact Or.inl (Or.inl h)
        · rcases List.mem_cons.1 hr with hr | hr
          · injection hr with hj hrr
            subst hj
            subst hrr
            exact Or.inl (Or.inr ⟨rfl, h2.symm⟩)
          · exact Or.inr ⟨r, hr, h1, h2⟩
    · rw [if_neg hlen, ih]
      constructor
      · rintro (h | ⟨r, hr, h1, h2⟩)
        · exact Or.inl h
        · exact Or.inr ⟨r, List.mem_cons_of_mem _ hr, h1, h2⟩
      · rintro (h | ⟨r, hr, h1, h2⟩)
        · exact Or.inl h
        · rcases List.mem_cons.1 hr with hr | hr
          · injection hr with hj hrr
            subst hj
            subst hrr
            exact absurd h1 hlen
          · exact Or.inr ⟨r, hr, h1, h2⟩

lemma buildFold_sound (k : Nat) (L : List (Nat × Str)) (d : PDict) :
    ∀ e ∈ L.foldl
        (fun d p => if k ≤ p.2.length then dictAdd d (p.2.take k) p.1 else d)
        d, ∀ j ∈ e.2,
      (∃ e' ∈ d, e'.1 = e.1 ∧ j ∈ e'.2) ∨
        ∃ r, (j, r) ∈ L ∧ k ≤ r.length ∧ r.take k = e.1 := by
  induction L generalizing d with
  | nil =>
    intro e he j hj
    exact Or.inl ⟨e, he, rfl, hj⟩
  | cons p L ih =>
    obtain ⟨i₀, r₀⟩ := p
    intro e he j hj
    rw [List.foldl_cons] at he
    by_cases hlen : k ≤ r₀.length
    · rw [if_pos hlen] at he
      rcases ih _ e he j hj with ⟨e', he', h1, h2⟩ | ⟨r, hr, h1, h2⟩
      · rcases dictAdd_entries e' he' j h2 with ⟨hj1, hj2⟩ | ⟨e'', he'', g1, g2⟩
        · exact Or.inr ⟨r₀, by simp [hj1], hlen, hj2.symm.trans h1⟩
        · exact Or.inl ⟨e'', he'', by rw [g1, h1], g2⟩
      · exact Or.inr ⟨r, List.mem_cons_of_mem _ hr, h1, h2⟩
    · rw [if_neg hlen] at he
      rcases ih _ e he j hj with ⟨e', he', h1, h2⟩ | ⟨r, hr, h1, h2⟩
      · exact Or.inl ⟨e', he', h1, h2⟩
      · exact Or.inr ⟨r, List.mem_cons_of_mem _ hr, h1, h2⟩

lemma buildFold_keys_nodup (k : Nat) (L : List (Nat × Str)) (d : PDict)
    (h : (d.map Prod.fst).Nodup) :
    ((L.foldl
        (fun d p => if k ≤ p.2.length then dictAdd d (p.2.take k) p.1 else d)
        d).map Prod.fst).Nodup := by
  induction L generalizing d with
  | nil => exact h
  | cons p L ih =>
    rw [List.foldl_cons]
    by_cases hlen : k ≤ p.2.length
    · rw [if_pos hlen]
      exact ih _ (dictAdd_keys_nodup h)
    · rw [if_neg hlen]
      exact ih _ h

lemma slot_initSlots_of_get {reads : List Str} {i : Nat} {r : Str}
    (h : reads.get? i = some r) : slot (initSlots reads) i = some r := by
  unfold slot initSlots
  rw [List.get?_eq_getElem?] at h ⊢
  rw [List.getElem?_map, h]
  rfl

lemma get_of_slot_initSlots {reads : List Str} {i : Nat} {r : Str}
    (h : slot (initSlots reads) i = some r) : reads.get? i = some r := by
  unfold slot initSlots at h
  rw [List.get?_eq_getElem?] at h ⊢
  rw [List.getElem?_map] at h
  rcases hg : reads[i]? with _ | r₀
  · rw [hg] at h
    simp at h
  · rw [hg] at h
    simp only [Option.map_some'] at h
    injection h with h
    rw [h]

lemma build_DInv (reads : List Str) (k : Nat) :
    DInv k (initSlots reads) (build_prefix_dict reads k) := by
  refine ⟨?_, ?_, ?_⟩
  · intro e he j hj
    rcases buildFold_sound k reads.enum [] e he j hj with ⟨e', he', -, -⟩ | h
    · simp at he'
    · obtain ⟨r, hr, h1, h2⟩ := h
      obtain ⟨hlt, hget⟩ := List.mem_enum hr
      refine ⟨r, ?_, h1, h2⟩
      refine slot_initSlots_of_get ?_
      rw [List.get?_eq_getElem?]
      exact List.getElem?_eq_some_iff.2 ⟨hlt, hget.symm⟩
  · intro i f hs hlen
    have hg : reads.get? i = some f := get_of_slot_initSlots hs
    unfold build_prefix_dict
    rw [buildFold_mem]
    refine Or.inr ⟨f, ?_, hlen, rfl⟩
    have henum : reads.enum[i]? = some (i, f) := by
      rw [List.getElem?_enum, ← List.get?_eq_getElem?, hg]
      rfl
    exact List.get?_mem (by rw [List.get?_eq_getElem?]; exact henum)
  · exact buildFold_keys_nodup k reads.enum [] (by simp)

/-
Slot updates, live counts, and the shape of a fired merge step.
-/

lemma slot_set_self {reads : Slots} {i : Nat} (x : Option Str)
    (h : i < reads.length) : slot (reads.set i x) i = x := by
  unfold slot
  rw [List.get?_eq_getElem?, List.getElem?_set, if_pos rfl, if_pos h]
  rfl

lemma slot_set_ne {reads : Slots} {i n : Nat} (x : Option Str) (h : i ≠ n) :
    slot (reads.set i x) n = slot reads n := by
  unfold slot
  rw [List.get?_eq_getElem?, List.getElem?_set, if_neg h, ← List.get?_eq_getElem?]

lemma countLive_set (reads : Slots) (n : Nat) (x : Option Str) :
    n < reads.length →
    countLive (reads.set n x) + (if (slot reads n).isSome then 1 else 0)
      = countLive reads + (if x.isSome then 1 else 0) := by
  induction reads generalizing n with
  | nil => intro h; simp at h
  | cons r rest ih =>
    intro h
    rcases n with _ | n
    · have hs : slot (r :: rest) 0 = r := rfl
      rw [hs]
      show countLive (x :: rest) + _ = _
      unfold countLive
      rw [List.countP_cons, List.countP_cons]
      rcases x <;> rcases r <;> simp
    · have hs : slot (r :: rest) (n + 1) = slot rest n := rfl
      rw [hs]
      show countLive (r :: rest.set n x) + _ = _
      unfold countLive
      rw [List.countP_cons, List.countP_cons]
      have := ih n (by simpa using h)
      unfold countLive at this
      omega

lemma findBest_some {k : Nat} {reads : Slots} {d : PDict} {i j ol : Nat}
    (h : findBest k reads d = (some (i, j), ol)) :
    olAt k reads (i, j) = ol ∧ 1 ≤ ol ∧
    (∀ q ∈ scanPairs k reads d, olAt k reads q ≤ ol) ∧
    (∃ L₁ L₂, scanPairs k reads d = L₁ ++ (i, j) :: L₂ ∧
      ∀ q ∈ L₁, olAt k reads q < ol) ∧
    ∃ a, slot reads i = some a ∧ k ≤ a.length ∧
      j ∈ dictGet d (pySuffix a k) ∧ j ≠ i ∧ ∃ b, slot reads j = some b := by
  have heq := findBest_eq_foldl k reads d
  rw [h] at heq
  obtain ⟨hmax, -, hsome⟩ := bump_foldl_spec (olAt k reads) (scanPairs k reads d)
  obtain ⟨h1, h2, L₁, L₂, hsplit, hfirst⟩ := hsome (i, j) (by rw [← heq])
  have hval : (List.foldl (bump (olAt k reads)) (⟨none, 0⟩ : Best)
      (scanPairs k reads d)).2 = ol := by rw [← heq]
  rw [hval] at h1 hmax
  rw [h1] at h2 hfirst
  have hmem : (i, j) ∈ scanPairs k reads d := by
    rw [hsplit]
    simp
  obtain ⟨a, ha, hlen, hjm, hji, hbs⟩ := mem_scanPairs.1 hmem
  rcases hsb : slot reads j with _ | b
  · rw [hsb] at hbs
    simp at hbs
  · exact ⟨h1, h2, hmax, ⟨L₁, L₂, hsplit, hfirst⟩,
      a, ha, hlen, hjm, hji, b, rfl⟩

lemma asmStep_merge {k : Nat} {reads : Slots} {d : PDict} {r' : Slots}
    {d' : PDict} (h : asmStep k reads d = some (r', d')) :
    ∃ i j ol a b, findBest k reads d = (some (i, j), ol) ∧ k ≤ ol ∧
      slot reads i = some a ∧ slot reads j = some b ∧ j ≠ i ∧
      k ≤ a.length ∧ ol = overlap a b k ∧
      r' = (reads.set i (some (a ++ b.drop ol))).set j none ∧
      d' = dictPurge (dictAdd d ((a ++ b.drop ol).take k) i) j := by
  unfold asmStep at h
  split at h
  · rename_i i j ol hf
    split at h
    · rename_i hol
      split at h
      · rename_i a b ha hb
        obtain ⟨holat, h1, hmax, hsplit, a₀, hsa, hlen0, hjmem, hji, b₀, hsb⟩ :=
          findBest_some hf
        have haa : a₀ = a := by
          rw [ha] at hsa
          injection hsa with hx
          exact hx.symm
        have hbb : b₀ = b := by
          rw [hb] at hsb
          injection hsb with hx
          exact hx.symm
        rw [haa] at hlen0 hjmem
        have holv : ol = overlap a b k := by
          unfold olAt at holat
          rw [ha, hb] at holat
          exact holat.symm
        have hmlen : k ≤ (a ++ b.drop ol).length := by
          rw [List.length_append]
          omega
        simp only [hmlen, if_true, Option.some.injEq] at h
        refine ⟨i, j, ol, a, b, hf, hol, ha, hb, hji, hlen0, holv,
          (congrArg Prod.fst h).symm, (congrArg Prod.snd h).symm⟩
      · exact absurd h (by simp)
    · exact absurd h (by simp)
  · exact absurd h (by simp)

lemma asmStep_countLive {k : Nat} {reads : Slots} {d : PDict} {r' : Slots}
    {d' : PDict} (h : asmStep k reads d = some (r', d')) :
    countLive r' + 1 = countLive reads := by
  obtain ⟨i, j, ol, a, b, -, -, hsa, hsb, hji, -, -, hr', -⟩ := asmStep_merge h
  have hilt : i < reads.length := slot_some_lt_length hsa
  have hjlt : j < reads.length := slot_some_lt_length hsb
  have hstep1 := countLive_set reads i (some (a ++ b.drop ol)) hilt
  rw [hsa] at hstep1
  simp at hstep1
  have hsj : slot (reads.set i (some (a ++ b.drop ol))) j = some b := by
    rw [slot_set_ne _ (Ne.symm hji), hsb]
  have hstep2 := countLive_set (reads.set i (some (a ++ b.drop ol))) j none
    (by rw [List.length_set]; exact hjlt)
  rw [hsj] at hstep2
  simp at hstep2
  rw [hr']
  omega

lemma overlap_ge_k {a b : Str} {k : Nat} (hk : 1 ≤ k) (hal : k ≤ a.length)
    (hbl : k ≤ b.length) (hmatch : pySuffix a k = b.take k) :
    k ≤ overlap a b k := by
  refine (overlap_returns_greatest a b k hk).1 k (le_refl k)
    (Nat.le_min.2 ⟨hal, hbl⟩) ?_
  rw [← pySuffix_eq_drop hk]
  exact hmatch

lemma candPair_mem_scanPairs {k : Nat} {reads : Slots} {d : PDict} {i j : Nat}
    (inv : DInv k reads d) (h : CandPair k reads i j) :
    (i, j) ∈ scanPairs k reads d := by
  obtain ⟨hij, a, b, ha, hb, hal, hbl, hkm⟩ := h
  refine mem_scanPairs.2 ⟨a, ha, hal, ?_, Ne.symm hij, by simp [hb]⟩
  have hc := inv.complete j b hb hbl
  rw [hkm]
  exact hc

lemma scanPair_candPair {k : Nat} {reads : Slots} {d : PDict} {i j : Nat}
    (hk : 1 ≤ k) (inv : DInv k reads d) (h : (i, j) ∈ scanPairs k reads d) :
    CandPair k reads i j ∧ k ≤ olAt k reads (i, j) := by
  obtain ⟨a, ha, hal, hjm, hji, hbs⟩ := mem_scanPairs.1 h
  obtain ⟨bkt, hfind, hjb⟩ := mem_dictGet hjm
  have hentry := dictFind_some_mem hfind
  obtain ⟨f, hsf, hfl, hftake⟩ := inv.sound _ hentry j hjb
  have hcand : CandPair k reads i j :=
    ⟨Ne.symm hji, a, f, ha, hsf, hal, hfl, hftake.symm⟩
  refine ⟨hcand, ?_⟩
  have hge : k ≤ overlap a f k := overlap_ge_k hk hal hfl hftake.symm
  have holAt : olAt k reads (i, j) = overlap a f k := by
    unfold olAt
    rw [ha, hsf]
  rw [holAt]
  exact hge

lemma asmStep_none_no_candpair {k : Nat} {reads : Slots} {d : PDict}
    (hk : 1 ≤ k) (inv : DInv k reads d) (hstep : asmStep k reads d = none) :
    ∀ i j, ¬ CandPair k reads i j := by
  intro i j hc
  have hmem := candPair_mem_scanPairs inv hc
  obtain ⟨-, hol⟩ := scanPair_candPair hk inv hmem
  have heq := findBest_eq_foldl k reads d
  obtain ⟨hmax, hnone, hsome⟩ :=
    bump_foldl_spec (olAt k reads) (scanPairs k reads d)
  unfold asmStep at hstep
  split at hstep
  · rename_i i₀ j₀ v hf
    obtain ⟨-, -, hmax', -, a₀, hsa, -, -, -, b₀, hsb⟩ := findBest_some hf
    have hvge : k ≤ v := le_trans hol (hmax' _ hmem)
    rw [if_pos hvge] at hstep
    simp [hsa, hsb] at hstep
  · rename_i v hf
    rw [hf] at heq
    have hfold1 : (List.foldl (bump (olAt k reads)) (⟨none, 0⟩ : Best)
        (scanPairs k reads d)).1 = none := (congrArg Prod.fst heq).symm
    have hfold2 : (List.foldl (bump (olAt k reads)) (⟨none, 0⟩ : Best)
        (scanPairs k reads d)).2 = v := (congrArg Prod.snd heq).symm
    have hz := hnone hfold1
    have hle := hmax _ hmem
    omega

lemma asmStep_DInv {k : Nat} {reads : Slots} {d : PDict} {r' : Slots}
    {d' : PDict} (inv : DInv k reads d) (h : asmStep k reads d = some (r', d')) :
    DInv k r' d' := by
  obtain ⟨i, j, ol, a, b, hf, hol, hsa, hsb, hji, hal, holv, hr', hd'⟩ :=
    asmStep_merge h
  have hmlen : k ≤ (a ++ b.drop ol).length := by
    rw [List.length_append]
    omega
  have hmtake : (a ++ b.drop ol).take k = a.take k :=
    List.take_append_of_le_length hal
  have hilt : i < reads.length := slot_some_lt_length hsa
  have hjlt : j < reads.length := slot_some_lt_length hsb
  have hslot_i : slot r' i = some (a ++ b.drop ol) := by
    rw [hr', slot_set_ne _ hji, slot_set_self _ hilt]
  have hslot_j : slot r' j = none := by
    rw [hr', slot_set_self _ (by rw [List.length_set]; exact hjlt)]
  have hslot_other : ∀ n, n ≠ i → n ≠ j → slot r' n = slot reads n := by
    intro n hni hnj
    rw [hr', slot_set_ne _ (fun hc => hnj hc.symm),
      slot_set_ne _ (fun hc => hni hc.symm)]
  refine ⟨?_, ?_, ?_⟩
  · intro e he j' hj'
    rw [hd'] at he
    obtain ⟨e₁, he₁, hkeq, hbeq⟩ := dictPurge_entries e he
    rw [hbeq] at hj'
    obtain ⟨hj'm, hj'ne⟩ := List.mem_filter.1 hj'
    have hj'j : j' ≠ j := by simpa using hj'ne
    rcases dictAdd_entries e₁ he₁ j' hj'm with ⟨hji', hkey⟩ | ⟨e₂, he₂, hk2, hm2⟩
    · refine ⟨a ++ b.drop ol, ?_, hmlen, ?_⟩
      · rw [hji']
        exact hslot_i
      · rw [hkeq, hkey]
    · obtain ⟨f, hsf, hfl, hft⟩ := inv.sound e₂ he₂ j' hm2
      by_cases hii : j' = i
      · have hfa : f = a := by
          rw [hii] at hsf
          exact Option.some_inj.1 (hsf.symm.trans hsa)
        refine ⟨a ++ b.drop ol, by rw [hii]; exact hslot_i, hmlen, ?_⟩
        rw [hmtake, ← hfa, hft, hk2, hkeq]
      · refine ⟨f, ?_, hfl, ?_⟩
        · rw [hslot_other j' hii hj'j]
          exact hsf
        · exact hft.trans (hk2.trans hkeq.symm)
  · intro i' f' hs' hlen'
    rw [hd']
    have hnodadd : ((dictAdd d ((a ++ b.drop ol).take k) i).map Prod.fst).Nodup :=
      dictAdd_keys_nodup inv.keys
    rw [dictGet_dictPurge hnodadd]
    by_cases hij' : i' = j
    · rw [hij'] at hs'
      rw [hslot_j] at hs'
      exact absurd hs' (by simp)
    · refine List.mem_filter.2 ⟨?_, by simpa using hij'⟩
      by_cases hii' : i' = i
      · have hf' : f' = a ++ b.drop ol := by
          rw [hii'] at hs'
          rw [hslot_i] at hs'
          injection hs' with hx
          exact hx.symm
        rw [hii', hf']
        exact (dictGet_dictAdd d _ i _ i).2 (Or.inr ⟨rfl, rfl⟩)
      · have hso : slot reads i' = some f' := by
          rw [← hslot_other i' hii' hij']
          exact hs'
        exact (dictGet_dictAdd d _ i _ i').2
          (Or.inl (inv.complete i' f' hso hlen'))
  · rw [hd']
    exact dictPurge_keys_nodup (dictAdd_keys_nodup inv.keys)

/-
The run of the merge loop: reachability, invariant along the run, and
sufficiency of the fuel supplied by `greedy_assemble`.
-/

lemma greedyLoopF_succ (k fuel : Nat) (r : Slots) (d : PDict) :
    greedyLoopF k (fuel + 1) r d
      = match asmStep k r d with
        | none => (r, d)
        | some (r1, d1) => greedyLoopF k fuel r1 d1 := rfl

lemma ReachN_head {k : Nat} {r : Slots} {d : PDict} {r1 : Slots} {d1 : PDict}
    {r2 : Slots} {d2 : PDict} {n : Nat} (h1 : asmStep k r d = some (r1, d1))
    (h2 : ReachN k n r1 d1 r2 d2) : ReachN k (n + 1) r d r2 d2 := by
  induction h2 with
  | refl => exact (ReachN.refl ..).tail h1
  | tail hr hs ih => exact (ih h1).tail hs

lemma ReachN_countLive {k n : Nat} {r : Slots} {d : PDict} {r' : Slots}
    {d' : PDict} (h : ReachN k n r d r' d') : countLive r' + n = countLive r := by
  induction h with
  | refl => rfl
  | tail hr hs ih =>
    have := asmStep_countLive hs
    omega

lemma Reach_DInv {k : Nat} {r : Slots} {d : PDict} {r' : Slots} {d' : PDict}
    (inv : DInv k r d) (h : Reach k r d r' d') : DInv k r' d' := by
  obtain ⟨n, h⟩ := h
  induction h with
  | refl => exact inv
  | tail hr hs ih => exact asmStep_DInv (ih inv) hs

lemma greedyLoopF_reach (k : Nat) :
    ∀ fuel (r : Slots) (d : PDict),
      Reach k r d (greedyLoopF k fuel r d).1 (greedyLoopF k fuel r d).2 := by
  intro fuel
  induction fuel with
  | zero => exact fun r d => ⟨0, ReachN.refl r d⟩
  | succ fuel ih =>
    intro r d
    rcases hs : asmStep k r d with _ | ⟨r1, d1⟩
    · rw [show greedyLoopF k (fuel + 1) r d = (r, d) from by
        rw [greedyLoopF_succ, hs]]
      exact ⟨0, ReachN.refl r d⟩
    · rw [show greedyLoopF k (fuel + 1) r d = greedyLoopF k fuel r1 d1 from by
        rw [greedyLoopF_succ, hs]]
      obtain ⟨n, hn⟩ := ih r1 d1
      exact ⟨n + 1, ReachN_head hs hn⟩

lemma greedyLoopF_fix (k : Nat) :
    ∀ fuel (r : Slots) (d : PDict), countLive r < fuel →
      asmStep k (greedyLoopF k fuel r d).1 (greedyLoopF k fuel r d).2 = none := by
  intro fuel
  induction fuel with
  | zero => intro r d h; omega
  | succ fuel ih =>
    intro r d h
    rcases hs : asmStep k r d with _ | ⟨r1, d1⟩
    · rw [show greedyLoopF k (fuel + 1) r d = (r, d) from by
        rw [greedyLoopF_succ, hs]]
      exact hs
    · rw [show greedyLoopF k (fuel + 1) r d = greedyLoopF k fuel r1 d1 from by
        rw [greedyLoopF_succ, hs]]
      have := asmStep_countLive hs
      exact ih r1 d1 (by omega)

lemma countLive_initSlots (reads : List Str) :
    countLive (initSlots reads) = reads.length := by
  unfold countLive initSlots
  rw [show reads.length = (reads.map some).length from by simp]
  exact List.countP_eq_length.2 (by simp)

lemma overlapScan_le (a b : Str) (stop : Nat) : ∀ l, overlapScan a b stop l ≤ l := by
  intro l
  induction l with
  | zero => exact le_refl 0
  | succ l ih =>
    unfold overlapScan
    by_cases h1 : l + 1 < stop
    · simp [h1]
    · rw [if_neg h1]
      by_cases h2 : pySuffix a (l + 1) = b.take (l + 1)
      · simp [h2]
      · rw [if_neg h2]
        omega

lemma overlap_le_min (a b : Str) (k : Nat) :
    overlap a b k ≤ min a.length b.length :=
  overlapScan_le a b k (min a.length b.length)

lemma countLive_pos {r : Slots} {i : Nat} {f : Str} (h : slot r i = some f) :
    1 ≤ countLive r := by
  unfold countLive
  rw [Nat.lt_iff_add_one_le.symm.trans List.countP_pos]
  refine ⟨some f, ?_, rfl⟩
  unfold slot at h
  rcases hg : r.get? i with _ | x
  · rw [hg] at h
    simp at h
  · rw [hg] at h
    have hx : x = some f := h
    rw [← hx]
    exact List.get?_mem hg

lemma mem_filterMap_of_slot {r : Slots} {i : Nat} {f : Str}
    (h : slot r i = some f) : f ∈ r.filterMap id := by
  refine List.mem_filterMap.2 ⟨some f, ?_, rfl⟩
  unfold slot at h
  rcases hg : r.get? i with _ | x
  · rw [hg] at h
    simp at h
  · rw [hg] at h
    have hx : x = some f := h
    rw [← hx]
    exact List.get?_mem hg

lemma greedy_assemble_run (R : List Str) (k : Nat) :
    Reach k (initSlots R) (build_prefix_dict R k)
      (greedyLoopF k (R.length + 1) (initSlots R) (build_prefix_dict R k)).1
      (greedyLoopF k (R.length + 1) (initSlots R) (build_prefix_dict R k)).2 ∧
    asmStep k
      (greedyLoopF k (R.length + 1) (initSlots R) (build_prefix_dict R k)).1
      (greedyLoopF k (R.length + 1) (initSlots R) (build_prefix_dict R k)).2
      = none := by
  refine ⟨greedyLoopF_reach k _ _ _, greedyLoopF_fix k _ _ _ ?_⟩
  rw [countLive_initSlots]
  omega

/-
Claim C3: the index invariant claimed by the spec, at every reachable state.
-/

/-- C3: throughout a run of `greedy_assemble` (right after the index is built
and after every merge step), every live fragment of length `≥ k` is
registered in the bucket of its leading `k` characters, and no tombstoned
slot index appears in any bucket. -/
theorem index_invariant_throughout (R : List Str) (k : Nat) (hk : 1 ≤ k)
    (r : Slots) (d : PDict)
    (h : Reach k (initSlots R) (build_prefix_dict R k) r d) :
    (∀ i f, slot r i = some f → k ≤ f.length → i ∈ dictGet d (f.take k)) ∧
    (∀ e ∈ d, ∀ j ∈ e.2, slot r j ≠ none) := by
  have inv := Reach_DInv (build_DInv R k) h
  refine ⟨inv.complete, ?_⟩
  intro e he j hj
  obtain ⟨f, hf, -, -⟩ := inv.sound e he j hj
  rw [hf]
  simp

/-- Witness for C3 at reads `["AB"]`, `k = 1`, at the freshly built state. -/
theorem index_invariant_throughout_witness :
    1 ≤ 1 ∧
    ((∀ i f, slot (initSlots [str "AB"]) i = some f → 1 ≤ f.length →
        i ∈ dictGet (build_prefix_dict [str "AB"] 1) (f.take 1)) ∧
      (∀ e ∈ build_prefix_dict [str "AB"] 1, ∀ j ∈ e.2,
        slot (initSlots [str "AB"]) j ≠ none)) :=
  ⟨by decide, index_invariant_throughout [str "AB"] 1 (by decide) _ _
    ⟨0, ReachN.refl _ _⟩⟩

/-
Claim C4 (amended): each merge removes exactly one live fragment and the
surviving merged fragment is at least as long as both inputs (the strict
length increase claimed by the spec fails when the overlap swallows all of
`b`); at most `n - 1` merges ever happen.
-/

/-- The amended per-step accounting of C4. -/
def GreedyStepBound (R : List Str) (k n : Nat) (r : Slots) (d : PDict) : Prop :=
  n ≤ R.length - 1 ∧
  ∀ r' d', asmStep k r d = some (r', d') →
    countLive r' + 1 = countLive r ∧
    ∃ i j a b, slot r i = some a ∧ slot r j = some b ∧ j ≠ i ∧
      slot r' i = some (a ++ b.drop (overlap a b k)) ∧ slot r' j = none ∧
      a.length ≤ (a ++ b.drop (overlap a b k)).length ∧
      b.length ≤ (a ++ b.drop (overlap a b k)).length

/-- C4 (amended): after `n` merges of a run on `R` at most `R.length - 1`
merges have happened, and any next merge tombstones exactly one live slot,
replaces the other by the merged fragment, and never shrinks it below either
input's length (strict growth can fail, see the counterexample). -/
theorem merge_step_counts (R : List Str) (k n : Nat) (r : Slots) (d : PDict)
    (hn : ReachN k n (initSlots R) (build_prefix_dict R k) r d) :
    GreedyStepBound R k n r d := by
  have hcount := ReachN_countLive hn
  rw [countLive_initSlots] at hcount
  constructor
  · rcases hn with - | ⟨hr, hs⟩
    · omega
    · obtain ⟨i, j, ol, a, b, -, -, hsa, hsb, hji, -, -, hr', -⟩ :=
        asmStep_merge hs
      have hilt : i < _ := slot_some_lt_length hsa
      have hsl : slot r i = some (a ++ b.drop ol) := by
        rw [hr', slot_set_ne _ hji, slot_set_self _ hilt]
      have := countLive_pos hsl
      omega
  · intro r' d' hs
    refine ⟨asmStep_countLive hs, ?_⟩
    obtain ⟨i, j, ol, a, b, -, -, hsa, hsb, hji, hal, holv, hr', -⟩ :=
      asmStep_merge hs
    have hilt : i < r.length := slot_some_lt_length hsa
    have hjlt : j < r.length := slot_some_lt_length hsb
    have hmin := overlap_le_min a b k
    have hminb : overlap a b k ≤ b.length :=
      le_trans hmin (min_le_right _ _)
    have hmina : overlap a b k ≤ a.length :=
      le_trans hmin (min_le_left _ _)
    refine ⟨i, j, a, b, hsa, hsb, hji, ?_, ?_, ?_, ?_⟩
    · rw [hr', ← holv, slot_set_ne _ hji, slot_set_self _ hilt]
    · rw [hr', slot_set_self _ (by rw [List.length_set]; exact hjlt)]
    · rw [List.length_append]
      omega
    · rw [List.length_append, List.length_drop]
      omega

/-- Witness for C4 at reads `["AB"]`, `k = 1`, zero merges done. -/
theorem merge_step_counts_witness :
    ReachN 1 0 (initSlots [str "AB"]) (build_prefix_dict [str "AB"] 1)
        (initSlots [str "AB"]) (build_prefix_dict [str "AB"] 1) ∧
      GreedyStepBound [str "AB"] 1 0 (initSlots [str "AB"])
        (build_prefix_dict [str "AB"] 1) :=
  ⟨ReachN.refl _ _,
    merge_step_counts [str "AB"] 1 0 _ _ (ReachN.refl _ _)⟩

/-- C4 counterexample: with reads `["ABC", "BC"]` and `k = 2`, the merge of
slot `0` and slot `1` fires with overlap `2 = len("BC")`, so the merged
fragment is `"ABC"` itself: the surviving fragment's length does not
strictly increase (it stays `3`). -/
theorem merge_no_strict_increase_cex :
    asmStep 2 (initSlots [str "ABC", str "BC"])
        (build_prefix_dict [str "ABC", str "BC"] 2)
      = some ([some (str "ABC"), none], [(str "AB", [0])]) ∧
    slot (initSlots [str "ABC", str "BC"]) 0 = some (str "ABC") := by
  decide

/-
Claim C1: at each iteration the merged pair maximises the overlap score.
Over the candidate pairs (trailing k-mer of `a` equals leading k-mer of `b`)
this is true, with ties resolved by the first pair in scan order — but it is
not a maximum over all ordered pairs of live fragments, see the
counterexample.
-/

/-- The amended statement of C1: the chosen pair is a candidate pair, its
overlap score is the maximum over all candidate pairs (distinct live
fragments whose trailing/leading k-mers agree), and it is the first pair in
fragment/candidate scan order attaining that maximum. -/
def MergeIsCandidateMax (k : Nat) (r : Slots) (d : PDict) (i j ol : Nat) :
    Prop :=
  CandPair k r i j ∧ olAt k r (i, j) = ol ∧
  (∀ i' j', CandPair k r i' j' → olAt k r (i', j') ≤ ol) ∧
  ∃ L₁ L₂, scanPairs k r d = L₁ ++ (i, j) :: L₂ ∧ ∀ q ∈ L₁, olAt k r q < ol

/-- C1 (amended): at any reachable state of a run of `greedy_assemble`, when
the scan elects `(i, j)` with score `ol ≥ k` (which is exactly when a merge
fires), that pair attains the maximum of `overlap` over all candidate pairs
— pairs of distinct live fragments whose trailing k-mer of the first equals
the leading k-mer of the second — and is the first such pair in scan order;
the maximum is not over all ordered pairs of live fragments. -/
theorem greedy_merge_candidate_max (R : List Str) (k i j ol : Nat)
    (r : Slots) (d : PDict) (hk : 1 ≤ k)
    (hreach : Reach k (initSlots R) (build_prefix_dict R k) r d)
    (hf : findBest k r d = (some (i, j), ol)) (hol : k ≤ ol) :
    MergeIsCandidateMax k r d i j ol := by
  have inv := Reach_DInv (build_DInv R k) hreach
  obtain ⟨holat, h1, hmax, hsplit, a, hsa, hlen, hjm, hji, b, hsb⟩ :=
    findBest_some hf
  have hmem : (i, j) ∈ scanPairs k r d := by
    obtain ⟨L₁, L₂, hs, -⟩ := hsplit
    rw [hs]
    simp
  obtain ⟨hcand, -⟩ := scanPair_candPair hk inv hmem
  exact ⟨hcand, holat, fun i' j' hc' => hmax _ (candPair_mem_scanPairs inv hc'),
    hsplit⟩

/-- Witness for C1 at reads `["AB", "BC"]`, `k = 1`: the scan elects the pair
`(0, 1)` with overlap `1`. -/
theorem greedy_merge_candidate_max_witness :
    (1 ≤ 1 ∧
      findBest 1 (initSlots [str "AB", str "BC"])
        (build_prefix_dict [str "AB", str "BC"] 1) = (some (0, 1), 1)) ∧
    MergeIsCandidateMax 1 (initSlots [str "AB", str "BC"])
      (build_prefix_dict [str "AB", str "BC"] 1) 0 1 1 :=
  ⟨⟨by decide, by decide⟩,
    greedy_merge_candidate_max [str "AB", str "BC"] 1 0 1 1 _ _ (by decide)
      ⟨0, ReachN.refl _ _⟩ (by decide) (by decide)⟩

/-- C1 counterexample: with reads `["XAB", "ABY", "BC", "CD"]` and `k = 1`
the first iteration merges the pair `(0, 2)` with overlap `1`, although the
ordered pair of distinct live fragments `("XAB", "ABY")` has overlap `2`: the
merged pair does not attain the maximum of `overlap` over all ordered pairs
of distinct live fragments, only over index candidates. -/
theorem greedy_merge_candidate_max_cex :
    findBest 1 (initSlots [str "XAB", str "ABY", str "BC", str "CD"])
        (build_prefix_dict [str "XAB", str "ABY", str "BC", str "CD"] 1)
      = (some (0, 2), 1) ∧
    (asmStep 1 (initSlots [str "XAB", str "ABY", str "BC", str "CD"])
        (build_prefix_dict [str "XAB", str "ABY", str "BC", str "CD"] 1)).isSome
      = true ∧
    slot (initSlots [str "XAB", str "ABY", str "BC", str "CD"]) 0
      = some (str "XAB") ∧
    slot (initSlots [str "XAB", str "ABY", str "BC", str "CD"]) 1
      = some (str "ABY") ∧
    overlap (str "XAB") (str "ABY") 1 = 2 := by
  decide

/-
Claim C10: reads strictly shorter than `k` are never merged, never indexed,
and come out verbatim as their own contigs.
-/

lemma Reach_preserve {k : Nat} {r₀ : Slots} {d₀ : PDict}
    (P : Slots → PDict → Prop) (h₀ : P r₀ d₀)
    (hstep : ∀ r d r' d', P r d → asmStep k r d = some (r', d') → P r' d') :
    ∀ r d, Reach k r₀ d₀ r d → P r d := by
  rintro r d ⟨n, hn⟩
  induction hn with
  | refl => exact h₀
  | tail hr hs ih => exact hstep _ _ _ _ (ih h₀) hs

/-- The property claimed by C10 for the read in slot `i` with content `f`:
every reachable state still holds `f` untouched in slot `i` and has `i` in
no index bucket, and `f` appears as its own contig in the output. -/
def ShortReadUntouched (R : List Str) (k i : Nat) (f : Str) : Prop :=
  (∀ r d, Reach k (initSlots R) (build_prefix_dict R k) r d →
    slot r i = some f ∧ ∀ e ∈ d, i ∉ e.2) ∧
  f ∈ greedy_assemble R k

/-- C10: an input read strictly shorter than the minimum overlap `k` is never
chosen as either side of a merge (its slot is untouched at every reachable
state), never appears in the prefix index, and is returned verbatim as a
contig of `greedy_assemble`. -/
theorem short_reads_never_merged (R : List Str) (k i : Nat) (f : Str)
    (hk : 1 ≤ k) (hf : R.get? i = some f) (hlen : f.length < k) :
    ShortReadUntouched R k i f := by
  have hinit : slot (initSlots R) i = some f ∧
      ∀ e ∈ build_prefix_dict R k, i ∉ e.2 := by
    refine ⟨slot_initSlots_of_get hf, ?_⟩
    intro e he hmem
    rcases buildFold_sound k R.enum [] e he i hmem with ⟨e', he', -, -⟩ | h
    · simp at he'
    · obtain ⟨r₀, hr₀, hl₀, -⟩ := h
      obtain ⟨hlt, hget⟩ := List.mem_enum hr₀
      have hgi : R.get? i = some r₀ := by
        rw [List.get?_eq_getElem?]
        exact List.getElem?_eq_some_iff.2 ⟨hlt, hget.symm⟩
      rw [hf] at hgi
      injection hgi with hx
      rw [← hx] at hl₀
      omega
  have hstep : ∀ r d r' d',
      (slot r i = some f ∧ ∀ e ∈ d, i ∉ e.2) →
      asmStep k r d = some (r', d') →
      slot r' i = some f ∧ ∀ e ∈ d', i ∉ e.2 := by
    rintro r d r' d' ⟨hslot, hdict⟩ hs
    obtain ⟨i₀, j₀, ol, a, b, hfb, -, hsa, hsb, hji, hal, -, hr', hd'⟩ :=
      asmStep_merge hs
    obtain ⟨-, -, -, -, a₂, hsa₂, -, hjm₂, -, -⟩ := findBest_some hfb
    have hi₀ : i₀ ≠ i := by
      intro hc
      rw [hc, hslot] at hsa
      injection hsa with hx
      rw [← hx] at hal
      omega
    have hj₀ : j₀ ≠ i := by
      intro hc
      obtain ⟨bkt, hfind, hjb⟩ := mem_dictGet hjm₂
      have hentry := dictFind_some_mem hfind
      rw [hc] at hjb
      exact hdict _ hentry hjb
    constructor
    · rw [hr', slot_set_ne _ hj₀, slot_set_ne _ hi₀]
      exact hslot
    · intro e he hmem
      rw [hd'] at he
      obtain ⟨e₁, he₁, -, hbeq⟩ := dictPurge_entries e he
      rw [hbeq] at hmem
      obtain ⟨hm1, -⟩ := List.mem_filter.1 hmem
      rcases dictAdd_entries e₁ he₁ i hm1 with ⟨hc, -⟩ | ⟨e₂, he₂, -, hm2⟩
      · exact hi₀ hc.symm
      · exact hdict e₂ he₂ hm2
  have hall := Reach_preserve _ hinit hstep
  refine ⟨hall, ?_⟩
  obtain ⟨hreach, -⟩ := greedy_assemble_run R k
  obtain ⟨hslot, -⟩ := hall _ _ hreach
  exact mem_filterMap_of_slot hslot

/-- Witness for C10 at reads `["A", "AB"]`, `k = 2`: the read `"A"` in slot
`0` is shorter than `k` and survives verbatim. -/
theorem short_reads_never_merged_witness :
    (1 ≤ 2 ∧ [str "A", str "AB"].get? 0 = some (str "A") ∧
      (str "A").length < 2) ∧
    ShortReadUntouched [str "A", str "AB"] 2 0 (str "A") :=
  ⟨⟨by decide, by decide, by decide⟩,
    short_reads_never_merged [str "A", str "AB"] 2 0 (str "A") (by decide)
      (by decide) (by decide)⟩

/-
Claim C9: idempotence of the assembler on its own output.  The second run
performs no merge; but terminal contigs can still overlap by more than `k`
(only k-mer-aligned overlaps are excluded), see the counterexample.
-/

lemma slot_of_filterMap_get {r : Slots} {n : Nat} {b : Str}
    (h : (r.filterMap id).get? n = some b) : ∃ o, slot r o = some b := by
  induction r generalizing n with
  | nil => simp at h
  | cons x rest ih =>
    rcases x with _ | v
    · rw [show List.filterMap id (none :: rest) = List.filterMap id rest from
        by simp] at h
      obtain ⟨o, ho⟩ := ih h
      exact ⟨o + 1, ho⟩
    · rw [show List.filterMap id (some v :: rest)
          = v :: List.filterMap id rest from by simp] at h
      rcases n with _ | n
      · refine ⟨0, ?_⟩
        have hv : v = b := by simpa using h
        rw [← hv]
        rfl
      · obtain ⟨o, ho⟩ := ih (by simpa using h)
        exact ⟨o + 1, ho⟩

lemma filterMap_get_pair {r : Slots} : ∀ {i j : Nat} {a b : Str}, i ≠ j →
    (r.filterMap id).get? i = some a → (r.filterMap id).get? j = some b →
    ∃ oi oj, oi ≠ oj ∧ slot r oi = some a ∧ slot r oj = some b := by
  induction r with
  | nil =>
    intro i j a b hij ha hb
    simp at ha
  | cons x rest ih =>
    intro i j a b hij ha hb
    rcases x with _ | v
    · rw [show List.filterMap id (none :: rest) = List.filterMap id rest from
        by simp] at ha hb
      obtain ⟨oi, oj, h1, h2, h3⟩ := ih hij ha hb
      exact ⟨oi + 1, oj + 1, by omega, h2, h3⟩
    · rw [show List.filterMap id (some v :: rest)
          = v :: List.filterMap id rest from by simp] at ha hb
      rcases i with _ | i <;> rcases j with _ | j
      · exact absurd rfl hij
      · have hv : v = a := by simpa using ha
        have hb2 : (List.filterMap id rest).get? j = some b := by
          simpa using hb
        obtain ⟨oj, hoj⟩ := slot_of_filterMap_get (r := rest) hb2
        refine ⟨0, oj + 1, by omega, ?_, hoj⟩
        rw [← hv]
        rfl
      · have hv : v = b := by simpa using hb
        have ha2 : (List.filterMap id rest).get? i = some a := by
          simpa using ha
        obtain ⟨oi, hoi⟩ := slot_of_filterMap_get (r := rest) ha2
        refine ⟨oi + 1, 0, by omega, hoi, ?_⟩
        rw [← hv]
        rfl
      · have hij2 : i ≠ j := by omega
        have ha2 : (List.filterMap id rest).get? i = some a := by
          simpa using ha
        have hb2 : (List.filterMap id rest).get? j = some b := by
          simpa using hb
        obtain ⟨oi, oj, h1, h2, h3⟩ := ih hij2 ha2 hb2
        exact ⟨oi + 1, oj + 1, by omega, h2, h3⟩

lemma filterMap_id_map_some (C : List Str) :
    List.filterMap id (C.map some) = C := by
  induction C with
  | nil => rfl
  | cons c rest ih => simp [ih]

lemma greedy_assemble_of_no_step {C : List Str} {k : Nat}
    (h : asmStep k (initSlots C) (build_prefix_dict C k) = none) :
    greedy_assemble C k = C := by
  unfold greedy_assemble
  rw [greedyLoopF_succ, h]
  exact filterMap_id_map_some C

/-- The amended idempotence property of C9: a second run of the assembler on
its own contigs performs no merge and returns them unchanged, and no ordered
pair of distinct terminal contigs has the trailing k-mer of the first equal
to the leading k-mer of the second (this replaces the claim's
`overlap = 0 for every pair`, which fails for overlaps longer than `k`). -/
def AssemblerIdempotent (R : List Str) (k : Nat) : Prop :=
  greedy_assemble (greedy_assemble R k) k = greedy_assemble R k ∧
  ∀ i j a b, i ≠ j →
    (greedy_assemble R k).get? i = some a →
    (greedy_assemble R k).get? j = some b →
    k ≤ a.length → k ≤ b.length → pySuffix a k ≠ b.take k

/-- C9 (amended): `greedy_assemble` is idempotent — running it again on its
own contig output with the same `k` performs no merge and returns the same
list — and on the terminal contigs no ordered pair of distinct contigs has
matching trailing/leading k-mers.  (The claim's stronger assertion that
`overlap` is `0` for every pair is false, see the counterexample.) -/
theorem greedy_assemble_idempotent (R : List Str) (k : Nat) (hk : 1 ≤ k) :
    AssemblerIdempotent R k := by
  obtain ⟨hreach, hfix⟩ := greedy_assemble_run R k
  have inv := Reach_DInv (build_DInv R k) hreach
  have hnocand := asmStep_none_no_candpair hk inv hfix
  have hCr : greedy_assemble R k
      = ((greedyLoopF k (R.length + 1) (initSlots R)
          (build_prefix_dict R k)).1).filterMap id := rfl
  have hpart2 : ∀ i j a b, i ≠ j →
      (greedy_assemble R k).get? i = some a →
      (greedy_assemble R k).get? j = some b →
      k ≤ a.length → k ≤ b.length → pySuffix a k ≠ b.take k := by
    intro i j a b hij ha hb hal hbl hkm
    rw [hCr] at ha hb
    obtain ⟨oi, oj, hne, hsa, hsb⟩ := filterMap_get_pair hij ha hb
    exact hnocand oi oj ⟨hne, a, b, hsa, hsb, hal, hbl, hkm⟩
  refine ⟨?_, hpart2⟩
  have hstep2 : asmStep k (initSlots (greedy_assemble R k))
      (build_prefix_dict (greedy_assemble R k) k) = none := by
    rcases hs : asmStep k (initSlots (greedy_assemble R k))
        (build_prefix_dict (greedy_assemble R k) k) with _ | ⟨r2, d2⟩
    · rfl
    · exfalso
      obtain ⟨i, j, ol, a, b, hfb, hol, hsa, hsb, hji, hal, holv, -, -⟩ :=
        asmStep_merge hs
      obtain ⟨-, -, -, -, a₂, hsa₂, -, hjm₂, -, -⟩ := findBest_some hfb
      have haa : a₂ = a := Option.some_inj.1 (hsa₂.symm.trans hsa)
      rw [haa] at hjm₂
      obtain ⟨bkt, hfind, hjb⟩ := mem_dictGet hjm₂
      have hentry := dictFind_some_mem hfind
      obtain ⟨f2, hsf2, hfl2, hft2⟩ :=
        (build_DInv (greedy_assemble R k) k).sound _ hentry j hjb
      have hbb : f2 = b := Option.some_inj.1 (hsf2.symm.trans hsb)
      rw [hbb] at hft2 hfl2
      have hga : (greedy_assemble R k).get? i = some a :=
        get_of_slot_initSlots hsa
      have hgb : (greedy_assemble R k).get? j = some b :=
        get_of_slot_initSlots hsb
      exact hpart2 i j a b (Ne.symm hji) hga hgb hal hfl2 hft2.symm
  exact greedy_assemble_of_no_step hstep2

/-- Witness for C9 at reads `["AB", "BC"]`, `k = 1` (the run merges them to
`["ABC"]`, and a second run changes nothing). -/
theorem greedy_assemble_idempotent_witness :
    1 ≤ 1 ∧ AssemblerIdempotent [str "AB", str "BC"] 1 :=
  ⟨by decide, greedy_assemble_idempotent [str "AB", str "BC"] 1 (by decide)⟩

/-- C9 counterexample: with reads `["XAB", "ABY"]` and `k = 1` the assembler
performs no merge (the trailing 1-mer `"B"` of `"XAB"` differs from the
leading 1-mer `"A"` of `"ABY"`), so the terminal contigs are the two reads —
yet `overlap("XAB", "ABY", 1) = 2`, not `0`, contradicting the claim that
every ordered pair of distinct terminal contigs scores `0`. -/
theorem greedy_assemble_idempotent_cex :
    greedy_assemble [str "XAB", str "ABY"] 1 = [str "XAB", str "ABY"] ∧
    overlap (str "XAB") (str "ABY") 1 = 2 := by
  decide

/-
Claim C5: the spec says zero reads raise `EmptyInputError`; `greedy_assemble`
has no raise statement at all — on an empty read list the scan finds nothing,
the loop breaks, and the empty contig list is returned.  The embedding is
accordingly total.
-/

/-- C5 counterexample: at zero reads (and the code's default
`min_overlap = 10`) `greedy_assemble` returns a result — the empty contig
list — rather than raising any error. -/
theorem greedy_assemble_nil_cex : greedy_assemble ([] : List Str) 10 = [] :=
  rfl

/-- C5 (amended): for every minimum overlap, `greedy_assemble` on zero reads
raises nothing and returns the empty contig list. -/
theorem greedy_assemble_nil (k : Nat) :
    greedy_assemble ([] : List Str) k = [] :=
  greedy_assemble_of_no_step rfl

/-
ReadSampler: `sample_reads` from `lab5_ex1.py`.  The two `random` draws per
iteration are modelled by an injected stream `picks : Nat → Nat × Nat`:
`random.choice(starts)` picks the element at index `(picks t).1 % len(starts)`
(any element is reachable), `random.randint(min_len, max_len)` yields
`min_len + (picks t).2 % width` — and raises (Python `ValueError`) when
`max_len < min_len`.  Raised errors are modelled by `none`.
-/

/-- Model of `random.randint(lo, hi)` driven by one injected draw `r`. -/
def randint (lo hi r : Nat) : Option Nat :=
  if lo ≤ hi then some (lo + r % (hi - lo + 1)) else none

/-- The aligned candidate start positions of `sample_reads`:
`[i for i in range(0, L - min_len + 1) if i % align == 0]`. -/
def alignedStarts (L min_len align : Nat) : List Nat :=
  (List.range (L + 1 - min_len)).filter (fun i => i % align == 0)

/-- One iteration's final start: the chosen aligned start, clamped to
`max(0, L - rlen)` when the read would overrun the sequence
(`if start + rlen > L: start = max(0, L - rlen)`). -/
def sampleStart (sequence : Str) (ss : List Nat) (idx rlen : Nat) : Nat :=
  let start0 := ss.getD idx 0
  if sequence.length < start0 + rlen then sequence.length - rlen else start0

/-- The sampling loop of `sample_reads`: `m` iterations remaining, `t` the
current draw index; each iteration draws a start and a length and appends
`sequence[start:start+rlen]`. -/
def sampleGo (sequence : Str) (min_len max_len : Nat)
    (picks : Nat → Nat × Nat) (ss : List Nat) :
    Nat → Nat → Option (List Str)
  | 0, _ => some []
  | m + 1, t =>
    match randint min_len max_len (picks t).2 with
    | none => none
    | some rlen =>
      (sampleGo sequence min_len max_len picks ss m (t + 1)).map
        (fun rest =>
          ((sequence.drop
            (sampleStart sequence ss ((picks t).1 % ss.length) rlen)).take
              rlen) :: rest)

/-- Model of `sample_reads(sequence, n_reads, min_len, max_len, align)`;
`none` models a raised `ValueError`. -/
def sample_reads (sequence : Str) (n_reads min_len max_len align : Nat)
    (picks : Nat → Nat × Nat) : Option (List Str) :=
  let ss := alignedStarts sequence.length min_len align
  if ss = [] then none
  else sampleGo sequence min_len max_len picks ss n_reads 0

lemma sampleGo_succ (sequence : Str) (min_len max_len : Nat)
    (picks : Nat → Nat × Nat) (ss : List Nat) (m t : Nat) :
    sampleGo sequence min_len max_len picks ss (m + 1) t
      = match randint min_len max_len (picks t).2 with
        | none => none
        | some rlen =>
          (sampleGo sequence min_len max_len picks ss m (t + 1)).map
            (fun rest =>
              ((sequence.drop
                (sampleStart sequence ss ((picks t).1 % ss.length) rlen)).take
                  rlen) :: rest) := rfl

lemma randint_bounds {lo hi r v : Nat} (h : randint lo hi r = some v) :
    lo ≤ v ∧ v ≤ hi := by
  unfold randint at h
  by_cases hle : lo ≤ hi
  · rw [if_pos hle] at h
    injection h with h
    have hm : r % (hi - lo + 1) < hi - lo + 1 := Nat.mod_lt _ (by omega)
    omega
  · rw [if_neg hle] at h
    exact Option.noConfusion h

lemma alignedStarts_nil_iff (L min_len align : Nat) :
    alignedStarts L min_len align = [] ↔ L < min_len := by
  constructor
  · intro h
    by_contra hc
    have hmem : 0 ∈ alignedStarts L min_len align := by
      unfold alignedStarts
      rw [List.mem_filter]
      refine ⟨List.mem_range.2 (by omega), ?_⟩
      rw [Nat.zero_mod]
      rfl
    rw [h] at hmem
    simp at hmem
  · intro h
    unfold alignedStarts
    rw [show L + 1 - min_len = 0 from by omega]
    rfl

lemma sampleGo_some_of_le {sequence : Str} {min_len max_len : Nat}
    (hmm : min_len ≤ max_len) (picks : Nat → Nat × Nat) (ss : List Nat) :
    ∀ m t, ∃ out, sampleGo sequence min_len max_len picks ss m t = some out ∧
      out.length = m := by
  intro m
  induction m with
  | zero => exact fun t => ⟨[], rfl, rfl⟩
  | succ m ih =>
    intro t
    obtain ⟨rest, hrest, hlen⟩ := ih (t + 1)
    have hrand : randint min_len max_len (picks t).2
        = some (min_len + (picks t).2 % (max_len - min_len + 1)) := by
      unfold randint
      rw [if_pos hmm]
    refine ⟨((sequence.drop (sampleStart sequence ss ((picks t).1 % ss.length)
        (min_len + (picks t).2 % (max_len - min_len + 1)))).take
          (min_len + (picks t).2 % (max_len - min_len + 1))) :: rest, ?_, ?_⟩
    · rw [sampleGo_succ, hrand, hrest]
      rfl
    · simp [hlen]

lemma sampleGo_none_of_lt {sequence : Str} {min_len max_len : Nat}
    (hmm : max_len < min_len) (picks : Nat → Nat × Nat) (ss : List Nat)
    (m t : Nat) :
    sampleGo sequence min_len max_len picks ss (m + 1) t = none := by
  have hrand : randint min_len max_len (picks t).2 = none := by
    unfold randint
    rw [if_neg (by omega)]
  rw [sampleGo_succ, hrand]

lemma sample_reads_eq (sequence : Str) (n_reads min_len max_len align : Nat)
    (picks : Nat → Nat × Nat) :
    sample_reads sequence n_reads min_len max_len align picks
      = if alignedStarts sequence.length min_len align = [] then none
        else sampleGo sequence min_len max_len picks
          (alignedStarts sequence.length min_len align) n_reads 0 := rfl

/-
Claim C8: the sampler's error condition.  The spec's "fails iff no valid
aligned start exists" misses the second failure mode of the code:
`random.randint(min_len, max_len)` raises when `max_len < min_len` (and at
least one read is drawn).
-/

/-- The amended error condition of C8: `sample_reads` fails exactly when no
valid aligned start exists (equivalently `L < min_len`), or when the length
range is empty (`max_len < min_len`) and at least one read is drawn; in
every other case it returns exactly `n_reads` reads. -/
def SampleErrorIff (sequence : Str) (n_reads min_len max_len align : Nat)
    (picks : Nat → Nat × Nat) : Prop :=
  (sample_reads sequence n_reads min_len max_len align picks = none ↔
    (sequence.length < min_len ∨ (max_len < min_len ∧ 1 ≤ n_reads))) ∧
  ∀ out, sample_reads sequence n_reads min_len max_len align picks = some out →
    out.length = n_reads

/-- C8 (amended): for `align ≥ 1`, `sample_reads` raises iff no valid aligned
start position exists (iff `L < min_len`) or `max_len < min_len` with
`n_reads ≥ 1`; otherwise it returns exactly `n_reads` reads. -/
theorem sample_reads_error_iff (sequence : Str)
    (n_reads min_len max_len align : Nat) (picks : Nat → Nat × Nat)
    (halign : 1 ≤ align) :
    SampleErrorIff sequence n_reads min_len max_len align picks := by
  unfold SampleErrorIff
  rw [sample_reads_eq]
  by_cases hss : alignedStarts sequence.length min_len align = []
  · rw [if_pos hss]
    have hL := (alignedStarts_nil_iff _ _ _).1 hss
    refine ⟨⟨fun _ => Or.inl hL, fun _ => rfl⟩, ?_⟩
    intro out hout
    exact Option.noConfusion hout
  · rw [if_neg hss]
    have hL : ¬ sequence.length < min_len := fun hc =>
      hss ((alignedStarts_nil_iff _ _ _).2 hc)
    by_cases hmm : min_len ≤ max_len
    · obtain ⟨out, hout, hlen⟩ := sampleGo_some_of_le hmm picks
        (alignedStarts sequence.length min_len align) n_reads 0
    
      rw [hout]
      refine ⟨⟨fun h => Option.noConfusion h, ?_⟩, ?_⟩
      · rintro (h | ⟨h1, -⟩)
        · exact absurd h hL
        · omega
      · intro out' hout'
        injection hout' with h
        rw [← h]
        exact hlen
    · rcases n_reads with _ | n
      · refine ⟨⟨fun h => Option.noConfusion h, ?_⟩, ?_⟩
        · rintro (h | ⟨-, h2⟩)
          · exact absurd h hL
          · omega
        · intro out hout
          injection hout with h
          rw [← h]
          rfl
      · rw [sampleGo_none_of_lt (by omega) picks _ n 0]
        refine ⟨⟨fun _ => Or.inr ⟨by omega, by omega⟩, fun _ => rfl⟩, ?_⟩
        intro out hout
        exact Option.noConfusion hout

/-- Witness for C8 at `"AAAAA"`, 2 reads of length 1–2, alignment 1. -/
theorem sample_reads_error_iff_witness :
    1 ≤ 1 ∧ SampleErrorIff (str "AAAAA") 2 1 2 1 (fun _ => (0, 0)) :=
  ⟨by decide,
    sample_reads_error_iff (str "AAAAA") 2 1 2 1 (fun _ => (0, 0)) (by decide)⟩

/-- C8 counterexample: with `L = 5 ≥ min_len = 2` a valid aligned start
exists (`0`), yet the call raises, because `random.randint(2, 1)` raises
`ValueError` (`max_len < min_len`) on the first draw — so "raises iff no
valid aligned start exists" is false as stated. -/
theorem sample_reads_error_iff_cex :
    sample_reads (str "AAAAA") 1 2 1 1 (fun _ => (0, 0)) = none ∧
    ¬ (str "AAAAA").length < 2 := by
  decide

/-
Claim C6: shape of the sampled reads.
-/

lemma getD_mod_mem {ss : List Nat} (hnz : ss ≠ []) (p : Nat) :
    ss.getD (p % ss.length) 0 ∈ ss := by
  have hlen : 0 < ss.length := List.length_pos.2 hnz
  have hidx : p % ss.length < ss.length := Nat.mod_lt _ hlen
  have hsome : ss[p % ss.length]? = some ss[p % ss.length] :=
    List.getElem?_eq_some_iff.2 ⟨hidx, rfl⟩
  rw [List.getD_eq_getElem?_getD, hsome]
  exact List.getElem_mem hidx

lemma mem_alignedStarts {L min_len align s : Nat}
    (h : s ∈ alignedStarts L min_len align) :
    s % align = 0 ∧ s + min_len ≤ L := by
  unfold alignedStarts at h
  obtain ⟨hr, hp⟩ := List.mem_filter.1 h
  have hlt := List.mem_range.1 hr
  exact ⟨by simpa using hp, by omega⟩

/-- The read-shape property claimed by C6: every returned read is a
contiguous substring of the source, with length in `[min_len, max_len]`, and
its start offset is a multiple of `align` or equals `L - length` (clamp). -/
def SampledReadsWellFormed (sequence : Str) (min_len max_len align : Nat)
    (out : List Str) : Prop :=
  ∀ r ∈ out, ∃ s l, r = (sequence.drop s).take l ∧
    min_len ≤ r.length ∧ r.length ≤ max_len ∧
    (s % align = 0 ∨ s = sequence.length - r.length)

lemma sampleGo_wf {sequence : Str} {min_len max_len align : Nat}
    {picks : Nat → Nat × Nat} {ss : List Nat}
    (hss : ∀ s ∈ ss, s % align = 0 ∧ s + min_len ≤ sequence.length)
    (hnz : ss ≠ []) (hminL : min_len ≤ sequence.length) :
    ∀ m t out, sampleGo sequence min_len max_len picks ss m t = some out →
      SampledReadsWellFormed sequence min_len max_len align out := by
  intro m
  induction m with
  | zero =>
    intro t out hout r hr
    injection hout with h
    rw [← h] at hr
    simp at hr
  | succ m ih =>
    intro t out hout
    rw [sampleGo_succ] at hout
    split at hout
    · exact Option.noConfusion hout
    · rename_i rlen hrand
      obtain ⟨hlo, hhi⟩ := randint_bounds hrand
      rcases hrec : sampleGo sequence min_len max_len picks ss m (t + 1)
        with _ | rest
      · rw [hrec] at hout
        exact Option.noConfusion hout
      · rw [hrec] at hout
        simp only [Option.map_some'] at hout
        injection hout with hout
        intro r hr
        rw [← hout] at hr
        rcases List.mem_cons.1 hr with hr | hr
        · subst hr
          have hmem : ss.getD ((picks t).1 % ss.length) 0 ∈ ss :=
            getD_mod_mem hnz _
          obtain ⟨halign0, hbound0⟩ := hss _ hmem
          by_cases hcl : sequence.length
              < ss.getD ((picks t).1 % ss.length) 0 + rlen
          · have hstart : sampleStart sequence ss ((picks t).1 % ss.length)
                rlen = sequence.length - rlen := by
              unfold sampleStart
              rw [if_pos hcl]
            rw [hstart]
            have hrl : ((sequence.drop (sequence.length - rlen)).take
                rlen).length
                = min rlen (sequence.length - (sequence.length - rlen)) := by
              simp
            refine ⟨sequence.length - rlen, rlen, rfl, ?_, ?_, ?_⟩
            · rw [hrl]
              rcases Nat.le_total rlen (sequence.length
                  - (sequence.length - rlen)) with hc | hc
              · rw [Nat.min_eq_left hc]
                omega
              · rw [Nat.min_eq_right hc]
                omega
            · rw [hrl]
              rcases Nat.le_total rlen (sequence.length
                  - (sequence.length - rlen)) with hc | hc
              · rw [Nat.min_eq_left hc]
                omega
              · rw [Nat.min_eq_right hc]
                omega
            · rw [hrl]
              rcases Nat.le_total rlen sequence.length with hc | hc
              · refine Or.inr ?_
                rw [Nat.min_eq_left (by omega)]
              · refine Or.inl ?_
                rw [show sequence.length - rlen = 0 from by omega]
                exact Nat.zero_mod align
          · have hstart : sampleStart sequence ss ((picks t).1 % ss.length)
                rlen = ss.getD ((picks t).1 % ss.length) 0 := by
              unfold sampleStart
              rw [if_neg hcl]
            rw [hstart]
            have hrl : ((sequence.drop (ss.getD ((picks t).1 % ss.length)
                0)).take rlen).length = rlen := by
              rw [List.length_take, List.length_drop,
                Nat.min_eq_left (by omega)]
            refine ⟨ss.getD ((picks t).1 % ss.length) 0, rlen, rfl, ?_, ?_,
              Or.inl halign0⟩
            · rw [hrl]
              exact hlo
            · rw [hrl]
              exact hhi
        · exact ih (t + 1) rest hrec r hr

/-- C6: whenever sampling succeeds with `1 ≤ min_len ≤ max_len` and
`align ≥ 1`, every returned read is a contiguous substring of the source,
its length lies in `[min_len, max_len]`, and its start offset is a multiple
of `align` or equals `L - length` (the clamp case). -/
theorem sample_reads_substrings (sequence : Str)
    (n_reads min_len max_len align : Nat) (picks : Nat → Nat × Nat)
    (out : List Str) (hmin : 1 ≤ min_len) (hmm : min_len ≤ max_len)
    (halign : 1 ≤ align)
    (hout : sample_reads sequence n_reads min_len max_len align picks
      = some out) :
    SampledReadsWellFormed sequence min_len max_len align out := by
  rw [sample_reads_eq] at hout
  by_cases hss : alignedStarts sequence.length min_len align = []
  · rw [if_pos hss] at hout
    exact Option.noConfusion hout
  · rw [if_neg hss] at hout
    have hminL : min_len ≤ sequence.length := by
      by_contra hc
      exact hss ((alignedStarts_nil_iff _ _ _).2 (by omega))
    exact sampleGo_wf (fun s hs => mem_alignedStarts hs) hss hminL
      n_reads 0 out hout

/-- Witness for C6 at source `"ABC"`, one read of length 1–2, alignment 1. -/
theorem sample_reads_substrings_witness :
    (1 ≤ 1 ∧ 1 ≤ 2 ∧ 1 ≤ 1 ∧
      sample_reads (str "ABC") 1 1 2 1 (fun _ => (0, 0)) = some [str "A"]) ∧
    SampledReadsWellFormed (str "ABC") 1 2 1 [str "A"] :=
  ⟨⟨by decide, by decide, by decide, by decide⟩,
    sample_reads_substrings (str "ABC") 1 1 2 1 (fun _ => (0, 0)) [str "A"]
      (by decide) (by decide) (by decide) (by decide)⟩

/-
AlignmentVerifier: `best_alignment_score(short, long)`.  The Python float
percent identity `100.0 * best / max(1, min(len(short), len(long)))` is
modelled exactly in `ℚ`.
-/

/-- Python `range(lo, hi)` over integers. -/
def intRange (lo hi : Int) : List Int :=
  (List.range (hi - lo).toNat).map (fun t : Nat => lo + (t : Int))

/-- The inner loop of `best_alignment_score` at offset `off`: the pair
`(matches, overlap_len)` — positions where both sequences are in range and
equal, and positions where both are in range. -/
def overlayStats (short long : Str) (off : Int) : Nat × Nat :=
  (List.range short.length).foldl
    (fun (acc : Nat × Nat) (i : Nat) =>
      if 0 ≤ off + (i : Int) ∧ off + (i : Int) < (long.length : Int) then
        (if short.get? i = long.get? (off + (i : Int)).toNat
          then acc.1 + 1 else acc.1, acc.2 + 1)
      else acc)
    (0, 0)

/-- The match count of the claim: aligned in-range positions that agree. -/
def matchCount (short long : Str) (off : Int) : Nat :=
  (overlayStats short long off).1

/-- Model of `best_alignment_score(short, long)`: slide `short` along `long`
over every offset in `range(-len(short) + 1, len(long))`, keep the first
strictly-best match count, and report
`(best, 100 * best / max(1, min(len(short), len(long))), best_off)`. -/
def best_alignment_score (short long : Str) : Nat × ℚ × Int :=
  let res := (intRange (1 - short.length) long.length).foldl
    (fun best off =>
      let st := overlayStats short long off
      if 0 < st.2 ∧ best.1 < st.1 then (st.1, off) else best)
    ((0 : Nat), (0 : Int))
  (res.1, (100 * res.1 : ℚ) / ((max 1 (min short.length long.length) : Nat) : ℚ),
    res.2)

lemma overlayStats_le (short long : Str) (off : Int) :
    (overlayStats short long off).1 ≤ (overlayStats short long off).2 := by
  unfold overlayStats
  generalize List.range short.length = L
  have hgen : ∀ (L : List Nat) (acc : Nat × Nat), acc.1 ≤ acc.2 →
      (L.foldl (fun (acc : Nat × Nat) (i : Nat) =>
        if 0 ≤ off + (i : Int) ∧ off + (i : Int) < (long.length : Int) then
          (if short.get? i = long.get? (off + (i : Int)).toNat
            then acc.1 + 1 else acc.1, acc.2 + 1)
        else acc) acc).1
      ≤ (L.foldl (fun (acc : Nat × Nat) (i : Nat) =>
        if 0 ≤ off + (i : Int) ∧ off + (i : Int) < (long.length : Int) then
          (if short.get? i = long.get? (off + (i : Int)).toNat
            then acc.1 + 1 else acc.1, acc.2 + 1)
        else acc) acc).2 := by
    intro L
    induction L with
    | nil => exact fun acc h => h
    | cons x L ih =>
      intro acc h
      refine ih _ ?_
      dsimp only
      by_cases h1 : 0 ≤ off + (x : Int) ∧ off + (x : Int) < (long.length : Int)
      · rw [if_pos h1]
        by_cases h2 : short.get? x = long.get? (off + (x : Int)).toNat
        · rw [if_pos h2]
          simpa using h
        · rw [if_neg h2]
          simp
          omega
      · rw [if_neg h1]
        exact h
  exact hgen L (0, 0) (le_refl 0)

lemma mem_intRange {lo hi x : Int} : x ∈ intRange lo hi ↔ lo ≤ x ∧ x < hi := by
  unfold intRange
  rw [List.mem_map]
  constructor
  · rintro ⟨t, ht, rfl⟩
    have hlt := List.mem_range.1 ht
    omega
  · rintro ⟨h1, h2⟩
    exact ⟨(x - lo).toNat, List.mem_range.2 (by omega), by omega⟩

lemma bestFold_spec (short long : Str) (L : List Int) :
    (∀ off ∈ L, matchCount short long off
      ≤ (L.foldl (fun best off =>
          let st := overlayStats short long off
          if 0 < st.2 ∧ best.1 < st.1 then (st.1, off) else best)
          ((0 : Nat), (0 : Int))).1) ∧
    ((L.foldl (fun best off =>
        let st := overlayStats short long off
        if 0 < st.2 ∧ best.1 < st.1 then (st.1, off) else best)
        ((0 : Nat), (0 : Int))).1 = 0 ∧
      (L.foldl (fun best off =>
        let st := overlayStats short long off
        if 0 < st.2 ∧ best.1 < st.1 then (st.1, off) else best)
        ((0 : Nat), (0 : Int))).2 = 0 ∨
      ((L.foldl (fun best off =>
        let st := overlayStats short long off
        if 0 < st.2 ∧ best.1 < st.1 then (st.1, off) else best)
        ((0 : Nat), (0 : Int))).2 ∈ L ∧
        matchCount short long
          (L.foldl (fun best off =>
            let st := overlayStats short long off
            if 0 < st.2 ∧ best.1 < st.1 then (st.1, off) else best)
            ((0 : Nat), (0 : Int))).2
          = (L.foldl (fun best off =>
            let st := overlayStats short long off
            if 0 < st.2 ∧ best.1 < st.1 then (st.1, off) else best)
            ((0 : Nat), (0 : Int))).1)) := by
  induction L using List.reverseRecOn with
  | nil => exact ⟨by simp, Or.inl ⟨rfl, rfl⟩⟩
  | append_singleton L x ih =>
    obtain ⟨ihmax, ihatt⟩ := ih
    rw [List.foldl_append]
    set res := L.foldl (fun best off =>
      let st := overlayStats short long off
      if 0 < st.2 ∧ best.1 < st.1 then (st.1, off) else best)
      ((0 : Nat), (0 : Int)) with hres
    by_cases hcond : 0 < (overlayStats short long x).2 ∧
        res.1 < (overlayStats short long x).1
    · have hstep : List.foldl (fun best off =>
          let st := overlayStats short long off
          if 0 < st.2 ∧ best.1 < st.1 then (st.1, off) else best)
          res [x] = ((overlayStats short long x).1, x) := by
        simp only [List.foldl_cons, List.foldl_nil, if_pos hcond]
      rw [hstep]
      constructor
      · intro off hoff
        rcases List.mem_append.1 hoff with hoff | hoff
        · exact le_trans (ihmax off hoff) (le_of_lt hcond.2)
        · simp at hoff
          subst hoff
          exact le_refl _
      · exact Or.inr ⟨by simp, rfl⟩
    · have hstep : List.foldl (fun best off =>
          let st := overlayStats short long off
          if 0 < st.2 ∧ best.1 < st.1 then (st.1, off) else best)
          res [x] = res := by
        simp only [List.foldl_cons, List.foldl_nil, if_neg hcond]
      rw [hstep]
      constructor
      · intro off hoff
        rcases List.mem_append.1 hoff with hoff | hoff
        · exact ihmax off hoff
        · simp at hoff
          subst hoff
          have hle := overlayStats_le short long off
          rcases Nat.eq_zero_or_pos (overlayStats short long off).2 with h0 | h0
          · unfold matchCount
            omega
          · unfold matchCount
            by_contra hc
            exact hcond ⟨h0, by omega⟩
      · rcases ihatt with ⟨h1, h2⟩ | ⟨h1, h2⟩
        · exact Or.inl ⟨h1, h2⟩
        · exact Or.inr ⟨List.mem_append.2 (Or.inl h1), h2⟩

/-- The property claimed of `best_alignment_score` by C7: the returned match
count is the maximum over every offset in
`[-(len(short) - 1), len(long) - 1]`, the returned offset attains it inside
that interval, and the percent identity is
`100 · best / min(len(short), len(long))` (exactly, in `ℚ`). -/
def BestAlignmentSpec (short long : Str) : Prop :=
  (∀ off : Int, 1 - short.length ≤ off → off ≤ (long.length : Int) - 1 →
    matchCount short long off ≤ (best_alignment_score short long).1) ∧
  1 - short.length ≤ (best_alignment_score short long).2.2 ∧
  (best_alignment_score short long).2.2 ≤ (long.length : Int) - 1 ∧
  matchCount short long (best_alignment_score short long).2.2
    = (best_alignment_score short long).1 ∧
  (best_alignment_score short long).2.1
    = (100 * (best_alignment_score short long).1 : ℚ)
      / ((min short.length long.length : Nat) : ℚ)

/-- C7: for nonempty `short` and `long`, `best_alignment_score` returns the
maximum match count over every offset in `[-(len(short)-1), len(long)-1]`,
an offset in that interval attaining it, and percent identity
`100 · best_matches / min(len(short), len(long))`. -/
theorem best_alignment_score_spec (short long : Str)
    (hs : 0 < short.length) (hl : 0 < long.length) :
    BestAlignmentSpec short long := by
  obtain ⟨hmax, hatt⟩ := bestFold_spec short long
    (intRange (1 - short.length) long.length)
  have hproj : ∀ g : Nat × Int → Prop,
      g ((intRange (1 - short.length) long.length).foldl
        (fun best off =>
          let st := overlayStats short long off
          if 0 < st.2 ∧ best.1 < st.1 then (st.1, off) else best)
        ((0 : Nat), (0 : Int))) →
      g ((best_alignment_score short long).1,
        (best_alignment_score short long).2.2) := by
    intro g hg
    exact hg
  have h1 : (best_alignment_score short long).1
      = ((intRange (1 - short.length) long.length).foldl
        (fun best off =>
          let st := overlayStats short long off
          if 0 < st.2 ∧ best.1 < st.1 then (st.1, off) else best)
        ((0 : Nat), (0 : Int))).1 := rfl
  have h2 : (best_alignment_score short long).2.2
      = ((intRange (1 - short.length) long.length).foldl
        (fun best off =>
          let st := overlayStats short long off
          if 0 < st.2 ∧ best.1 < st.1 then (st.1, off) else best)
        ((0 : Nat), (0 : Int))).2 := rfl
  refine ⟨?_, ?_, ?_, ?_, ?_⟩
  · intro off ho1 ho2
    rw [h1]
    exact hmax off (mem_intRange.2 ⟨ho1, by omega⟩)
  · rw [h2]
    rcases hatt with ⟨-, hz⟩ | ⟨hmem, -⟩
    · rw [hz]
      omega
    · exact (mem_intRange.1 hmem).1
  · rw [h2]
    rcases hatt with ⟨-, hz⟩ | ⟨hmem, -⟩
    · rw [hz]
      omega
    · have := (mem_intRange.1 hmem).2
      omega
  · rw [h1, h2]
    rcases hatt with ⟨hz1, hz2⟩ | ⟨-, heq⟩
    · rw [hz1, hz2]
      have h0mem : (0 : Int) ∈ intRange (1 - short.length) long.length :=
        mem_intRange.2 ⟨by omega, by omega⟩
      have := hmax 0 h0mem
      omega
    · exact heq
  · have hminpos : 1 ≤ min short.length long.length :=
      Nat.le_min.2 ⟨hs, hl⟩
    have hmx : max 1 (min short.length long.length)
        = min short.length long.length := Nat.max_eq_right hminpos
    show (100 * (best_alignment_score short long).1 : ℚ)
        / ((max 1 (min short.length long.length) : Nat) : ℚ) = _
    rw [hmx]

/-- Witness for C7 at `short = long = "AB"` (best `2`, identity `100`,
offset `0`). -/
theorem best_alignment_score_spec_witness :
    (0 < (str "AB").length ∧ 0 < (str "AB").length) ∧
    BestAlignmentSpec (str "AB") (str "AB") :=
  ⟨⟨by decide, by decide⟩,
    best_alignment_score_spec (str "AB") (str "AB") (by decide) (by decide)⟩
